import Mathlib

/-!
# Verification of the WZ-archive editor core (schlop-app)

A shallow embedding in Lean 4 of the WZ codec at the heart of the
browser-resident MapleStory WZ editor: the keystream generator
(`wz-crypto.js`), the binary reader/writer string and offset codecs
(`wz-binary-reader.js` and the binary writer module), the version-hash
utility (`wz-tool.js`), the BGRA4444 pixel decoder (`wz-png.js`), the
tree model (`wz-node.js`) and the archive repacker (`repackWzFile`).

JavaScript values are modelled as follows: byte buffers are `List Nat`
(each element < 256), strings are `List Nat` of UTF-16 code units,
32-bit wrap-around arithmetic (`>>> 0`, `Math.imul`, `ToInt32`) is
explicit `% 2^32`, and signed bytes are `Int` with two's-complement
conversions spelled out.
-/

namespace Wz

/-- 2^32, the modulus of all JavaScript 32-bit wrap-around arithmetic. -/
def M32 : Nat := 4294967296

theorem M32_eq_pow : M32 = 2 ^ 32 := by decide

/-- 32-bit wrap-around subtraction: `(a - b) >>> 0` on JS numbers
(`ToUint32` of a possibly negative exact difference). -/
def sub32 (a b : Nat) : Nat := (a + (M32 - b % M32)) % M32

/-- `Math.imul(a, b) >>> 0`: 32-bit wrap-around multiplication. -/
def imul32 (a b : Nat) : Nat := (a * b) % M32

/-- `rotateLeft` from the writer / reader modules:
`n &= 31; ((x << n) | (x >>> (32 - n))) >>> 0`.  JS `>>>` applies
`ToUint32` to its left operand first, hence the `x % M32`; when
`n % 32 = 0` the JS shift count `32` itself reduces mod 32 so that
`x >>> 32 = x % M32`, and the Lean expression (where `x >>> 32 = 0`)
gives the same value because OR-ing `x % M32` with itself or with `0`
agree after the `<<< 0`. -/
def rotateLeft (x n : Nat) : Nat :=
  (((x % M32) <<< (n % 32)) % M32) ||| ((x % M32) >>> (32 - n % 32))

/-- Little-endian byte encoding: `n` bytes of `v` (as stored by
`setUint32`/`setInt32`/`setUint16` after wrap-around). -/
def natLE : Nat → Nat → List Nat
  | 0, _ => []
  | n + 1, v => v % 256 :: natLE n (v / 256)

/-- `writeInt32` on a JS number `v` (DataView `setInt32` stores the
two's-complement pattern, i.e. `v mod 2^32`, little-endian). -/
def int32LE (v : Int) : List Nat := natLE 4 (v % (M32 : Int)).toNat

/-- The byte stored by `writeSByte v` for `-128 ≤ v ≤ 127`
(DataView `setInt8`, two's complement). -/
def sbyteByte (v : Int) : Nat := (v % 256).toNat

/-- `readSByte`: reinterpret a byte as a signed 8-bit integer. -/
def toInt8 (b : Nat) : Int :=
  let r := b % 256
  if r < 128 then (r : Int) else (r : Int) - 256

@[simp] theorem natLE_length (n v : Nat) : (natLE n v).length = n := by
  induction n generalizing v with
  | zero => rfl
  | succ n ih => simp [natLE, ih]

@[simp] theorem int32LE_length (v : Int) : (int32LE v).length = 4 := by
  simp [int32LE]

theorem rotateLeft_lt (x n : Nat) : rotateLeft x n < M32 := by
  rw [M32_eq_pow]
  apply Nat.or_lt_two_pow
  · rw [← M32_eq_pow]; exact Nat.mod_lt _ (by decide)
  · calc (x % M32) >>> (32 - n % 32) ≤ x % M32 := by
          rw [Nat.shiftRight_eq_div_pow]; exact Nat.div_le_self _ _
      _ < 2 ^ 32 := by rw [← M32_eq_pow]; exact Nat.mod_lt _ (by decide)

theorem sub32_lt (a b : Nat) : sub32 a b < M32 := Nat.mod_lt _ (by decide)

theorem xor_lt_M32 {a b : Nat} (ha : a < M32) (hb : b < M32) : a ^^^ b < M32 := by
  rw [M32_eq_pow] at *; exact Nat.xor_lt_two_pow ha hb

/-- Adding back `b` after `sub32 _ b` is the identity mod 2^32. -/
theorem sub32_add_cancel (a b : Nat) : (sub32 a b + b) % M32 = a % M32 := by
  simp only [sub32, M32]; omega

/-! ## Encrypted offsets (claim C3)

`WzBinaryWriter.writeOffset` (writer module) and
`WzBinaryReader.readWzOffset` (`wz-binary-reader.js`).  The stream I/O
(4 little-endian bytes, identical on both sides) is factored out:
`writeOffsetWord` is the uint32 the writer stores at position `pos`,
`readWzOffsetVal` is the value the reader returns at position `pos`
given the stored uint32. -/

/-- `WZ_OFFSET_CONSTANT` from `wz-constants.js`.
Modelled from the spec: `wz-constants.js` is not among the provided
sources; §4.2 of the spec fixes the subtracted constant as
`0x581C3F6D`.  (The inverse property below holds for any value of the
constant, as reader and writer compute with the same one.) -/
def WZ_OFFSET_CONSTANT : Nat := 0x581C3F6D

/-- The obfuscation mask both sides compute from the stream position,
the data-section start and the version hash:
`rotl((((pos - fStart) ^ 0xFFFFFFFF) * hash - WZ_OFFSET_CONSTANT), low 5 bits)`. -/
def offsetMask (pos fStart hash : Nat) : Nat :=
  let e1 := (sub32 pos fStart) ^^^ 0xFFFFFFFF
  let e2 := imul32 e1 hash
  let e3 := sub32 e2 WZ_OFFSET_CONSTANT
  rotateLeft e3 (e3 &&& 0x1F)

/-- `WzBinaryWriter.writeOffset`: the uint32 written at position `pos`
for target offset `value`:
`(mask ^ ((value >>> 0) - fStart * 2)) >>> 0`. -/
def writeOffsetWord (pos fStart hash value : Nat) : Nat :=
  (offsetMask pos fStart hash ^^^ sub32 (value % M32) (fStart * 2)) % M32

/-- `WzBinaryReader.readWzOffset`: the absolute offset recovered at
position `pos` from the stored uint32 `word` (top-level reader,
`startOffset = 0`): `((mask ^ word) >>> 0 + fStart * 2) >>> 0`. -/
def readWzOffsetVal (pos fStart hash word : Nat) : Nat :=
  let o := (offsetMask pos fStart hash ^^^ word) % M32
  (o + fStart * 2) % M32

theorem offsetMask_lt (pos fStart hash : Nat) : offsetMask pos fStart hash < M32 :=
  rotateLeft_lt _ _

/-- **C3.** Writing an encrypted offset for target `t` at position `p`
(version hash `h`, data-section start `s`) and then reading the stored
word back at the same position with the same `h` and `s` recovers
`t mod 2^32`.  No bounds on `p`, `s`, `h`, `t` are needed: both sides
reduce everything modulo 2^32. -/
theorem writeOffset_readWzOffset_inverse (p s h t : Nat) :
    readWzOffsetVal p s h (writeOffsetWord p s h t) = t % M32 := by
  unfold readWzOffsetVal writeOffsetWord
  have hm : offsetMask p s h < M32 := offsetMask_lt p s h
  have hd : sub32 (t % M32) (s * 2) < M32 := sub32_lt _ _
  rw [Nat.mod_eq_of_lt (xor_lt_M32 hm hd)]
  rw [← Nat.xor_assoc, Nat.xor_self, Nat.zero_xor]
  rw [Nat.mod_eq_of_lt hd]
  have := sub32_add_cancel (t % M32) (s * 2)
  rw [mul_comm s 2] at *
  rw [this, Nat.mod_mod_of_dvd _ dvd_rfl]

/-- The concrete instance named by the claim: version hash `0x6B4F2A31`,
data-section start `0x4C`, position `0x100`, target `0x2000` — the
reader returns `0x2000`. -/
theorem writeOffset_readWzOffset_instance :
    readWzOffsetVal 0x100 0x4C 0x6B4F2A31 (writeOffsetWord 0x100 0x4C 0x6B4F2A31 0x2000) = 0x2000 := by
  decide

/-! ## BGRA4444 pixel decoding (claim C7)

`decodeBGRA4444` from `wz-png.js`: the loop walks `i` over
`0, 2, 4, …, W·H·2 - 2` and writes the four output bytes at `j = i*2`;
equivalently, the `k`-th 16-bit little-endian word (`lo = raw[2k]`,
`hi = raw[2k+1]`) produces output bytes `4k..4k+3`.  Out-of-range
`Uint8Array` reads cannot occur for a payload of the expected size, so
the embedding defaults them to 0. -/

/-- One RGBA quadruple from one BGRA4444 word, exactly as the source
computes it (`b` and `g` from the low byte, `r` and `a` from the high
byte, each nibble `n` expanded to `n | (n << 4)`). -/
def bgra4444Pixel (lo hi : Nat) : List Nat :=
  let b := lo &&& 0x0F
  let g := (lo >>> 4) &&& 0x0F
  let r := hi &&& 0x0F
  let a := (hi >>> 4) &&& 0x0F
  [r ||| (r <<< 4), g ||| (g <<< 4), b ||| (b <<< 4), a ||| (a <<< 4)]

/-- `decodeBGRA4444(raw, width, height)` as a flat RGBA8888 byte list. -/
def decodeBGRA4444 (raw : List Nat) (width height : Nat) : List Nat :=
  (List.range (width * height)).flatMap fun k =>
    bgra4444Pixel (raw.getD (2 * k) 0) (raw.getD (2 * k + 1) 0)

/-! ## Version hash (claim C5)

`checkAndGetVersionHash` from `wz-tool.js` and the version-header
computation at the top of `repackWzFile`; the candidate-version order
tried by `parseWzFile` (`wz-file.js`) when no version hint is given. -/

/-- ASCII codes of the decimal representation of `n`
(`String(n)` followed by `charCodeAt`).  Structural recursion on a fuel
bounded by `n` itself (division by 10 strictly decreases, so `n` steps
always suffice) keeps the definition kernel-reducible. -/
def decDigitsGo : Nat → Nat → List Nat
  | 0, n => [48 + n % 10]
  | fuel + 1, n => if n < 10 then [48 + n] else decDigitsGo fuel (n / 10) ++ [48 + n % 10]

def decDigits (n : Nat) : List Nat := decDigitsGo n n

/-- The version hash of a patch version: fold
`hash = ((hash * 32) + charCode + 1) >>> 0` over the decimal string. -/
def versionHashOf (v : Nat) : Nat :=
  (decDigits v).foldl (fun h c => (h * 32 + c + 1) % M32) 0

/-- XOR of the four bytes of a 32-bit hash
(`(h >> 24) & 0xFF ^ (h >> 16) & 0xFF ^ (h >> 8) & 0xFF ^ h & 0xFF`). -/
def byteXorOfHash (h : Nat) : Nat :=
  ((h >>> 24) &&& 0xFF) ^^^ ((h >>> 16) &&& 0xFF) ^^^ ((h >>> 8) &&& 0xFF) ^^^ (h &&& 0xFF)

/-- `(~x) & 0xFF` on a byte `x`. -/
def complByte (x : Nat) : Nat := x ^^^ 0xFF

/-- The uint16 version header `repackWzFile` emits for a given patch
version (its "Step 1"). -/
def wzVersionHeaderFor (gameVersion : Nat) : Nat :=
  complByte (byteXorOfHash (versionHashOf gameVersion))

/-- `checkAndGetVersionHash(wzVersionHeader, maplestoryPatchVersion)`
from `wz-tool.js`: returns the hash when the header matches (or the
64-bit synthetic header 770 is in use), else 0. -/
def checkAndGetVersionHash (wzVersionHeader v : Nat) : Nat :=
  let versionHash := versionHashOf v
  if wzVersionHeader = 770 then versionHash
  else if wzVersionHeader = complByte (byteXorOfHash versionHash) then versionHash
  else 0

/-- The candidate patch versions `parseWzFile` tries for a classic
(non-64-bit) archive when no version hint is given:
`83` first, then `1..500` without `83`. -/
def classicCandidates : List Nat :=
  83 :: (((List.range 500).map (· + 1)).filter (fun v => v ≠ 83))

/-! ## Tree node operations (claims C8, C10)

`WzNode.addChild` / `WzNode.removeChild` from `wz-node.js`.  Nodes are
identified by their `id`; a forest state maps each id to its parent
reference and its child sequence. -/

/-- The mutable tree state: `parent` and `children` of every node id. -/
structure Forest where
  parent : Nat → Option Nat
  children : Nat → List Nat

/-- Freshly constructed nodes: no parents, no children. -/
def initForest : Forest := ⟨fun _ => none, fun _ => []⟩

/-- `p.addChild(c)`: `c.parent = p; p.children.push(c)` — unconditional. -/
def addChild (p c : Nat) (s : Forest) : Forest :=
  { parent := fun x => if x = c then some p else s.parent x
    children := fun x => if x = p then s.children p ++ [c] else s.children x }

/-- `p.removeChild(c)`: if `indexOf` finds `c`, splice out that first
occurrence and clear `c.parent`; otherwise do nothing. -/
def removeChild (p c : Nat) (s : Forest) : Forest :=
  if c ∈ s.children p then
    { parent := fun x => if x = c then none else s.parent x
      children := fun x => if x = p then (s.children p).erase c else s.children x }
  else s

/-- A single tree mutation. -/
inductive TreeOp where
  | add (p c : Nat)
  | remove (p c : Nat)

def applyOp : TreeOp → Forest → Forest
  | .add p c, s => addChild p c s
  | .remove p c, s => removeChild p c s

def applyOps (ops : List TreeOp) (s : Forest) : Forest :=
  ops.foldl (fun s op => applyOp op s) s

/-- The spec invariant: a node's parent, if present, lists it exactly
once in its child sequence. -/
def ParentChildInv (s : Forest) : Prop :=
  ∀ c p, s.parent c = some p → (s.children p).count c = 1

/-- An operation sequence is guarded when no `addChild` call adds a
child already present in that parent's child sequence (duplicate adds
to the same parent are the one way the code can break the invariant). -/
def GuardedOps : List TreeOp → Forest → Prop
  | [], _ => True
  | .add p c :: rest, s => c ∉ s.children p ∧ GuardedOps rest (applyOp (.add p c) s)
  | .remove p c :: rest, s => GuardedOps rest (applyOp (.remove p c) s)

theorem addChild_preserves_inv {s : Forest} {p c : Nat}
    (hinv : ParentChildInv s) (hg : c ∉ s.children p) :
    ParentChildInv (addChild p c s) := by
  intro d q hdq
  simp only [addChild] at hdq ⊢
  by_cases hdc : d = c
  · subst hdc
    simp only [if_pos rfl] at hdq
    cases hdq
    simp [List.count_append, List.count_eq_zero_of_not_mem hg]
  · simp only [if_neg hdc] at hdq
    by_cases hqp : q = p
    · subst hqp
      rw [if_pos rfl, List.count_append, hinv d q hdq,
        List.count_eq_zero_of_not_mem (show d ∉ [c] by simp [hdc])]
    · rw [if_neg hqp]
      exact hinv d q hdq

theorem removeChild_preserves_inv {s : Forest} {p c : Nat}
    (hinv : ParentChildInv s) :
    ParentChildInv (removeChild p c s) := by
  unfold removeChild
  by_cases hmem : c ∈ s.children p
  · rw [if_pos hmem]
    intro d q hdq
    simp only at hdq ⊢
    by_cases hdc : d = c
    · subst hdc; simp only [if_pos rfl] at hdq; cases hdq
    · simp only [if_neg hdc] at hdq
      by_cases hqp : q = p
      · subst hqp
        rw [if_pos rfl, List.count_erase_of_ne hdc]
        exact hinv d q hdq
      · rw [if_neg hqp]
        exact hinv d q hdq
  · rw [if_neg hmem]
    exact hinv

theorem guardedOps_preserve_inv {ops : List TreeOp} :
    ∀ {s : Forest}, ParentChildInv s → GuardedOps ops s →
      ParentChildInv (applyOps ops s) := by
  induction ops with
  | nil => intro s hinv _; exact hinv
  | cons op rest ih =>
      intro s hinv hg
      cases op with
      | add p c =>
          obtain ⟨hnot, hg'⟩ := hg
          exact ih (addChild_preserves_inv hinv hnot) hg'
      | remove p c =>
          exact ih (removeChild_preserves_inv hinv) hg

theorem initForest_inv : ParentChildInv initForest := by
  intro c p h
  exact Option.noConfusion h

/-! ## Encrypted strings (claims C4, C1, C6)

`WzBinaryWriter.writeWzString` / `_writeUnicodeString` /
`_writeAsciiString` from the writer module and
`WzBinaryReader.readWzString` / `_decodeUnicode` / `_decodeAscii` from
`wz-binary-reader.js`.  The keystream is a function `key : Nat → Nat`
(the byte `wzKey.at(i)`; always < 256 for the real generator).  Strings
are lists of UTF-16 code units.  The reader's cursor is modelled by
letting each read consume a prefix of the remaining byte list. -/

/-- One 16-bit keystream word for character index `i`:
`(wzKey.at(i*2+1) << 8) | wzKey.at(i*2)`. -/
def keyWord (key : Nat → Nat) (i : Nat) : Nat :=
  (key (2 * i + 1) <<< 8) ||| key (2 * i)

/-- The character loop of `_writeUnicodeString`: each unit is XOR'd with
its keystream word, then with a walking mask that starts at `0xAAAA` and
increments (mod 2^16) per unit; the result is stored as a little-endian
uint16. -/
def encodeUnicodeChars (key : Nat → Nat) : Nat → Nat → List Nat → List Nat
  | _, _, [] => []
  | i, mask, c :: cs =>
      let e := (c ^^^ keyWord key i) ^^^ mask
      natLE 2 e ++ encodeUnicodeChars key (i + 1) ((mask + 1) &&& 0xFFFF) cs

/-- The character loop of `_writeAsciiString`: each unit is truncated to
a byte, XOR'd with one keystream byte and a walking mask starting at
`0xAA`, and stored (`writeByte` masks with `0xFF`). -/
def encodeAsciiChars (key : Nat → Nat) : Nat → Nat → List Nat → List Nat
  | _, _, [] => []
  | i, mask, c :: cs =>
      let e := ((c &&& 0xFF) ^^^ key i) ^^^ mask
      (e &&& 0xFF) :: encodeAsciiChars key (i + 1) ((mask + 1) &&& 0xFF) cs

/-- `WzBinaryWriter.writeWzString`: empty strings emit a single zero
byte; a string with any unit above 127 takes the unicode branch
(positive length prefix, `127` + int32 for length ≥ 127), otherwise the
8-bit branch (negated length prefix, `-128` + int32 for length > 127). -/
def writeWzString (key : Nat → Nat) (s : List Nat) : List Nat :=
  if s = [] then [0]
  else if s.any (fun c => 127 < c) then
    (if 127 ≤ s.length then sbyteByte 127 :: int32LE s.length else [sbyteByte s.length]) ++
      encodeUnicodeChars key 0 0xAAAA s
  else
    (if 127 < s.length then sbyteByte (-128) :: int32LE s.length
     else [sbyteByte (-(s.length : Int))]) ++
      encodeAsciiChars key 0 0xAA s

/-- `readSByte` on the remaining byte list. -/
def readSByteL : List Nat → Option (Int × List Nat)
  | [] => none
  | b :: rest => some (toInt8 b, rest)

/-- `readUInt16` (little-endian) on the remaining byte list. -/
def readUInt16L : List Nat → Option (Nat × List Nat)
  | b0 :: b1 :: rest => some (b0 % 256 + 256 * (b1 % 256), rest)
  | _ => none

/-- `readByte` on the remaining byte list. -/
def readByteL : List Nat → Option (Nat × List Nat)
  | [] => none
  | b :: rest => some (b % 256, rest)

/-- Reinterpret a uint32 as a signed int32 (`getInt32`). -/
def toInt32 (w : Nat) : Int :=
  let r := w % M32
  if r < 2147483648 then (r : Int) else (r : Int) - (M32 : Int)

/-- `readInt32` (little-endian, signed) on the remaining byte list. -/
def readInt32L : List Nat → Option (Int × List Nat)
  | b0 :: b1 :: b2 :: b3 :: rest =>
      some (toInt32 (b0 % 256 + 256 * (b1 % 256) + 65536 * (b2 % 256) + 16777216 * (b3 % 256)),
        rest)
  | _ => none

/-- The character loop of `_decodeUnicode`. -/
def decodeUnicodeChars (key : Nat → Nat) : Nat → Nat → Nat → List Nat →
    Option (List Nat × List Nat)
  | _, _, 0, l => some ([], l)
  | i, mask, n + 1, l =>
      match readUInt16L l with
      | none => none
      | some (enc, rest) =>
          let c := ((enc ^^^ mask) ^^^ keyWord key i) &&& 0xFFFF
          match decodeUnicodeChars key (i + 1) ((mask + 1) &&& 0xFFFF) n rest with
          | none => none
          | some (cs, rest') => some (c :: cs, rest')

/-- The character loop of `_decodeAscii`. -/
def decodeAsciiChars (key : Nat → Nat) : Nat → Nat → Nat → List Nat →
    Option (List Nat × List Nat)
  | _, _, 0, l => some ([], l)
  | i, mask, n + 1, l =>
      match readByteL l with
      | none => none
      | some (enc, rest) =>
          let c := ((enc ^^^ mask) ^^^ key i) &&& 0xFF
          match decodeAsciiChars key (i + 1) ((mask + 1) &&& 0xFF) n rest with
          | none => none
          | some (cs, rest') => some (c :: cs, rest')

/-- `WzBinaryReader.readWzString`: a signed length byte discriminates
the unicode (positive) and 8-bit (negative) branches, with `127` / `-128`
signalling a 4-byte length follower. -/
def readWzString (key : Nat → Nat) (l : List Nat) : Option (List Nat × List Nat) :=
  match readSByteL l with
  | none => none
  | some (sb, rest) =>
    if sb = 0 then some ([], rest)
    else if 0 < sb then
      match (if sb = 127 then readInt32L rest else some (sb, rest)) with
      | none => none
      | some (len, rest') =>
          if len ≤ 0 then some ([], rest')
          else decodeUnicodeChars key 0 0xAAAA len.toNat rest'
    else
      match (if sb = -128 then readInt32L rest else some (-sb, rest)) with
      | none => none
      | some (len, rest') =>
          if len ≤ 0 then some ([], rest')
          else decodeAsciiChars key 0 0xAA len.toNat rest'

/-- Which branch of the string codec is in play. -/
inductive StrBranch where
  | empty
  | unicode
  | ascii
deriving DecidableEq

/-- The branch `writeWzString` selects (`charCodeAt(i) > 127` test). -/
def writerBranch (s : List Nat) : StrBranch :=
  if s = [] then .empty
  else if s.any (fun c => 127 < c) then .unicode else .ascii

/-- The branch `readWzString` takes, from the sign of the first
(length) byte. -/
def readerBranch (l : List Nat) : StrBranch :=
  match l with
  | [] => .empty
  | b :: _ =>
      let sb := toInt8 b
      if sb = 0 then .empty else if 0 < sb then .unicode else .ascii

/-! ### String codec lemmas -/

theorem and_FFFF_eq_mod (a : Nat) : a &&& 0xFFFF = a % 65536 := by
  have := Nat.and_pow_two_sub_one_eq_mod a 16
  norm_num at this
  exact this

theorem and_FF_eq_mod (a : Nat) : a &&& 0xFF = a % 256 := by
  have := Nat.and_pow_two_sub_one_eq_mod a 8
  norm_num at this
  exact this

theorem keyWord_lt (key : Nat → Nat) (hk : ∀ i, key i < 256) (i : Nat) :
    keyWord key i < 65536 := by
  have h1 : key (2 * i + 1) <<< 8 < 65536 := by
    rw [Nat.shiftLeft_eq]
    have := hk (2 * i + 1)
    omega
  have h2 : key (2 * i) < 65536 := lt_of_lt_of_le (hk _) (by omega)
  have : (65536 : Nat) = 2 ^ 16 := by norm_num
  rw [this] at h1 h2 ⊢
  exact Nat.or_lt_two_pow h1 h2

theorem xor_lt_65536 {a b : Nat} (ha : a < 65536) (hb : b < 65536) : a ^^^ b < 65536 := by
  have h : (65536 : Nat) = 2 ^ 16 := by norm_num
  rw [h] at ha hb ⊢
  exact Nat.xor_lt_two_pow ha hb

theorem xor_lt_256 {a b : Nat} (ha : a < 256) (hb : b < 256) : a ^^^ b < 256 := by
  have h : (256 : Nat) = 2 ^ 8 := by norm_num
  rw [h] at ha hb ⊢
  exact Nat.xor_lt_two_pow ha hb

theorem readUInt16L_natLE (e : Nat) (rest : List Nat) :
    readUInt16L (natLE 2 e ++ rest) = some (e % 65536, rest) := by
  simp only [natLE, List.cons_append, List.nil_append, readUInt16L]
  congr 2
  omega

theorem encodeUnicodeChars_length (key : Nat → Nat) :
    ∀ (cs : List Nat) (i mask : Nat),
      (encodeUnicodeChars key i mask cs).length = 2 * cs.length := by
  intro cs
  induction cs with
  | nil => intro i mask; rfl
  | cons c cs ih =>
      intro i mask
      simp only [encodeUnicodeChars, List.length_append, natLE_length, ih, List.length_cons]
      omega

theorem encodeAsciiChars_length (key : Nat → Nat) :
    ∀ (cs : List Nat) (i mask : Nat),
      (encodeAsciiChars key i mask cs).length = cs.length := by
  intro cs
  induction cs with
  | nil => intro i mask; rfl
  | cons c cs ih =>
      intro i mask
      simp only [encodeAsciiChars, List.length_cons, ih]

theorem decodeUnicodeChars_encodeUnicodeChars (key : Nat → Nat)
    (hk : ∀ i, key i < 256) :
    ∀ (cs : List Nat) (i mask : Nat) (tail : List Nat), mask < 65536 →
      (∀ c ∈ cs, c < 65536) →
      decodeUnicodeChars key i mask cs.length (encodeUnicodeChars key i mask cs ++ tail) =
        some (cs, tail) := by
  intro cs
  induction cs with
  | nil => intro i mask tail _ _; rfl
  | cons c cs ih =>
      intro i mask tail hmask hc
      have hcHead : c < 65536 := hc c (List.mem_cons_self c cs)
      have hkw : keyWord key i < 65536 := keyWord_lt key hk i
      have he : (c ^^^ keyWord key i) ^^^ mask < 65536 :=
        xor_lt_65536 (xor_lt_65536 hcHead hkw) hmask
      simp only [encodeUnicodeChars, List.length_cons, List.append_assoc,
        decodeUnicodeChars, readUInt16L_natLE]
      rw [Nat.mod_eq_of_lt he, Nat.xor_cancel_right, Nat.xor_cancel_right]
      simp only [and_FFFF_eq_mod]
      rw [Nat.mod_eq_of_lt hcHead]
      rw [ih (i + 1) ((mask + 1) % 65536) tail (Nat.mod_lt _ (by norm_num))
        (fun d hd => hc d (List.mem_cons_of_mem c hd))]

theorem decodeAsciiChars_encodeAsciiChars (key : Nat → Nat)
    (hk : ∀ i, key i < 256) :
    ∀ (cs : List Nat) (i mask : Nat) (tail : List Nat), mask < 256 →
      (∀ c ∈ cs, c < 256) →
      decodeAsciiChars key i mask cs.length (encodeAsciiChars key i mask cs ++ tail) =
        some (cs, tail) := by
  intro cs
  induction cs with
  | nil => intro i mask tail _ _; rfl
  | cons c cs ih =>
      intro i mask tail hmask hc
      have hcHead : c < 256 := hc c (List.mem_cons_self c cs)
      have hcand : c &&& 0xFF = c := by rw [and_FF_eq_mod]; exact Nat.mod_eq_of_lt hcHead
      have he : ((c &&& 0xFF) ^^^ key i) ^^^ mask < 256 := by
        rw [hcand]; exact xor_lt_256 (xor_lt_256 hcHead (hk i)) hmask
      have heand : (((c &&& 0xFF) ^^^ key i) ^^^ mask) &&& 0xFF =
          ((c &&& 0xFF) ^^^ key i) ^^^ mask := by
        rw [and_FF_eq_mod]; exact Nat.mod_eq_of_lt he
      simp only [encodeAsciiChars, List.length_cons, List.cons_append,
        decodeAsciiChars, readByteL]
      rw [heand, Nat.mod_eq_of_lt he]
      rw [Nat.xor_cancel_right, Nat.xor_cancel_right, hcand, hcand]
      rw [ih (i + 1) ((mask + 1) &&& 0xFF) tail
        (by rw [and_FF_eq_mod]; exact Nat.mod_lt _ (by norm_num))
        (fun d hd => hc d (List.mem_cons_of_mem c hd))]

theorem toInt8_ofNat_small (b : Nat) (h : b < 128) : toInt8 b = (b : Int) := by
  simp only [toInt8]
  rw [Nat.mod_eq_of_lt (by omega : b < 256), if_pos h]

theorem sbyteByte_ofNat_small (b : Nat) (h : b < 256) : sbyteByte (b : Int) = b := by
  simp only [sbyteByte]
  omega

theorem toInt8_sbyteByte_neg (len : Nat) (h1 : 1 ≤ len) (h2 : len ≤ 127) :
    toInt8 (sbyteByte (-(len : Int))) = -(len : Int) := by
  have hb : sbyteByte (-(len : Int)) = 256 - len := by
    simp only [sbyteByte]; omega
  rw [hb]
  simp only [toInt8]
  have : (256 - len) % 256 = 256 - len := Nat.mod_eq_of_lt (by omega)
  rw [this]
  rw [if_neg (by omega)]
  omega

theorem sbyteByte_neg128 : sbyteByte (-128) = 128 := by decide

theorem toInt8_128 : toInt8 128 = -128 := by decide

theorem toInt8_127 : toInt8 127 = 127 := by decide

theorem readInt32L_natLE (len : Nat) (h : len < 4294967296) (rest : List Nat) :
    readInt32L (natLE 4 len ++ rest) = some (toInt32 len, rest) := by
  simp only [natLE, List.cons_append, List.nil_append, readInt32L]
  have hsum : len % 256 % 256 + 256 * (len / 256 % 256 % 256) +
      65536 * (len / 256 / 256 % 256 % 256) +
      16777216 * (len / 256 / 256 / 256 % 256 % 256) = len := by omega
  rw [hsum]

theorem toInt32_of_lt (len : Nat) (h : len < 2147483648) : toInt32 len = (len : Int) := by
  simp only [toInt32, M32]
  rw [Nat.mod_eq_of_lt (by omega), if_pos h]

theorem int32LE_ofNat (len : Nat) (h : len < 4294967296) :
    int32LE (len : Int) = natLE 4 len := by
  simp only [int32LE, M32]
  congr 1
  omega

/-- Round-trip of the encrypted-string codec: reading the bytes
`writeWzString` emits (followed by anything) returns the original
string and leaves the trailing bytes unconsumed.  Hypotheses: the
keystream produces bytes, the string consists of UTF-16 code units, and
its length fits in an int32 (JS engines cap strings far below 2^31). -/
theorem readWzString_writeWzString (key : Nat → Nat) (s tail : List Nat)
    (hk : ∀ i, key i < 256) (hs : ∀ c ∈ s, c < 65536)
    (hlen : s.length < 2147483648) :
    readWzString key (writeWzString key s ++ tail) = some (s, tail) := by
  by_cases hemp : s = []
  · subst hemp; rfl
  · have hone : 1 ≤ s.length := List.length_pos.mpr hemp
    have h32 : s.length < 4294967296 := by omega
    have hne0 : ¬(s.length : Int) = 0 := by exact_mod_cast by omega
    have hpos : (0 : Int) < (s.length : Int) := by exact_mod_cast by omega
    have hlen0 : ¬(s.length : Int) ≤ 0 := by rw [Int.not_le]; exact hpos
    by_cases huni : s.any (fun c => 127 < c) = true
    · -- unicode branch
      rw [writeWzString, if_neg hemp, if_pos huni]
      by_cases hbig : 127 ≤ s.length
      · rw [if_pos hbig]
        rw [show sbyteByte 127 = 127 by decide,
          show ((s.length : Int)) = ((s.length : Nat) : Int) from rfl, int32LE_ofNat _ h32]
        simp only [List.cons_append, List.append_assoc]
        rw [readWzString]
        simp only [readSByteL, toInt8_127, readInt32L_natLE _ h32, toInt32_of_lt _ hlen]
        norm_num [hlen0]
        exact decodeUnicodeChars_encodeUnicodeChars key hk s 0 0xAAAA tail (by norm_num) hs
      · rw [if_neg hbig]
        have hne127 : ¬(s.length : Int) = 127 := by exact_mod_cast by omega
        rw [show sbyteByte ((s.length : Nat) : Int) = s.length from
          sbyteByte_ofNat_small _ (by omega)]
        simp only [List.cons_append, List.nil_append, List.append_assoc]
        rw [readWzString]
        simp only [readSByteL, toInt8_ofNat_small _ (by omega : s.length < 128)]
        norm_num [hne0, hpos, hne127, hlen0]
        exact decodeUnicodeChars_encodeUnicodeChars key hk s 0 0xAAAA tail (by norm_num) hs
    · -- 8-bit branch
      have hc : ∀ c ∈ s, c < 256 := by
        intro c hcmem
        by_contra hge
        exact huni (List.any_eq_true.mpr ⟨c, hcmem, by simp only [decide_eq_true_eq]; omega⟩)
      rw [writeWzString, if_neg hemp, if_neg huni]
      by_cases hbig : 127 < s.length
      · rw [if_pos hbig]
        rw [sbyteByte_neg128, show ((s.length : Int)) = ((s.length : Nat) : Int) from rfl,
          int32LE_ofNat _ h32]
        simp only [List.cons_append, List.append_assoc]
        rw [readWzString]
        simp only [readSByteL, toInt8_128, readInt32L_natLE _ h32, toInt32_of_lt _ hlen]
        norm_num [hlen0]
        exact decodeAsciiChars_encodeAsciiChars key hk s 0 0xAA tail (by norm_num) hc
      · rw [if_neg hbig]
        have hle : s.length ≤ 127 := by omega
        have hnegne0 : ¬(-(s.length : Int)) = 0 := by simp only [neg_eq_zero]; exact hne0
        have hnegpos : ¬(0 : Int) < -(s.length : Int) := by omega
        have hnegne128 : ¬(-(s.length : Int)) = -128 := by
          intro hEq
          have : (s.length : Int) = 128 := by omega
          omega
        simp only [List.cons_append, List.nil_append, List.append_assoc]
        rw [readWzString]
        simp only [readSByteL, toInt8_sbyteByte_neg _ hone hle]
        norm_num [hnegne0, hnegpos, hnegne128, hlen0]
        exact decodeAsciiChars_encodeAsciiChars key hk s 0 0xAA tail (by norm_num) hc

/-- The reader's branch on `writeWzString` output always matches the
writer's selection (no hypotheses needed: it is decided by the length
prefix byte alone). -/
theorem readerBranch_writeWzString (key : Nat → Nat) (s tail : List Nat) :
    readerBranch (writeWzString key s ++ tail) = writerBranch s := by
  by_cases hemp : s = []
  · subst hemp; rfl
  · have hone : 1 ≤ s.length := List.length_pos.mpr hemp
    have hne0 : ¬(s.length : Int) = 0 := by exact_mod_cast by omega
    have hpos : (0 : Int) < (s.length : Int) := by exact_mod_cast by omega
    by_cases huni : s.any (fun c => 127 < c) = true
    · rw [writeWzString, if_neg hemp, if_pos huni, writerBranch, if_neg hemp, if_pos huni]
      by_cases hbig : 127 ≤ s.length
      · rw [if_pos hbig]
        simp only [List.cons_append, List.append_assoc, readerBranch]
        norm_num [show toInt8 (sbyteByte 127) = 127 by decide]
      · rw [if_neg hbig]
        rw [show sbyteByte ((s.length : Nat) : Int) = s.length from
          sbyteByte_ofNat_small _ (by omega)]
        simp only [List.cons_append, List.nil_append, List.append_assoc, readerBranch]
        norm_num [toInt8_ofNat_small _ (by omega : s.length < 128), hne0, hpos]
    · rw [writeWzString, if_neg hemp, if_neg huni, writerBranch, if_neg hemp, if_neg huni]
      by_cases hbig : 127 < s.length
      · rw [if_pos hbig]
        simp only [List.cons_append, List.append_assoc, readerBranch]
        norm_num [show toInt8 (sbyteByte (-128)) = -128 by decide]
      · rw [if_neg hbig]
        have hle : s.length ≤ 127 := by omega
        have hnegne0 : ¬(-(s.length : Int)) = 0 := by simp only [neg_eq_zero]; exact hne0
        have hnegpos : ¬(0 : Int) < -(s.length : Int) := by omega
        simp only [List.cons_append, List.nil_append, List.append_assoc, readerBranch]
        norm_num [toInt8_sbyteByte_neg _ hone hle, hnegne0, hnegpos]

/-! ## Size calculation vs. emission (claims C1) -/

/-- The writer's `Map<string, number>` string cache, as an association
list (keys are the raw JS strings, i.e. code-unit lists). -/
abbrev Cache := List (List Nat × Nat)

/-- `Map.set`: replace the value when the key is present, else append. -/
def cacheSet (m : Cache) (k : List Nat) (v : Nat) : Cache :=
  if (List.lookup k m).isSome then m.map (fun p => if p.1 = k then (k, v) else p)
  else m ++ [(k, v)]

/-- The type-prefixed cache key `` `${type}_${str}` `` used for
directory-entry names. -/
def storeKey (type : Nat) (s : List Nat) : List Nat := decDigits type ++ [95] ++ s

/-- `getCompressedIntLength(v)`: `(v > 127 || v < -127) ? 5 : 1`. -/
def getCompressedIntLength (v : Int) : Nat :=
  if 127 < v ∨ v < -127 then 5 else 1

/-- `getEncodedStringLength(s)` — the size-calculation helper.  Note the
unicode test is `charCodeAt(i) > 255`, not the writer's `> 127`. -/
def getEncodedStringLength (s : List Nat) : Nat :=
  if s = [] then 1
  else
    let unicode := s.any (fun c => 255 < c)
    let prefixLen := if (if unicode then 126 else 127) < s.length then 5 else 1
    let encodedLen := if unicode then s.length * 2 else s.length
    prefixLen + encodedLen

/-- `getWzObjectValueLength(s, type)` with its calculation cache
(`_calcStringCache`): cache hits on names longer than 4 cost 5 bytes
(type byte 2 + int32 offset); otherwise 1 type byte plus the computed
string encoding, registering the key. -/
def getWzObjectValueLength (s : List Nat) (type : Nat) (cache : Cache) : Nat × Cache :=
  let storeName := storeKey type s
  if 4 < s.length && (List.lookup storeName cache).isSome then (5, cache)
  else (1 + getEncodedStringLength s, cacheSet cache storeName 1)

/-- `WzBinaryWriter.writeWzObjectValue(str, type)`: the bytes emitted
and the updated writer cache.  `pos` is the buffer position and `fStart`
the header start; they only affect the cached offset value, never the
byte count. -/
def writeWzObjectValue (key : Nat → Nat) (pos fStart : Nat) (s : List Nat) (type : Nat)
    (cache : Cache) : List Nat × Cache :=
  let storeName := storeKey type s
  if 4 < s.length && (List.lookup storeName cache).isSome then
    ((2 : Nat) :: int32LE (((List.lookup storeName cache).getD 0 : Nat) : Int), cache)
  else
    ((type &&& 0xFF) :: writeWzString key s,
      if (List.lookup storeName cache).isSome then cache
      else cacheSet cache storeName (pos - fStart))

/-- Two caches agree when they hold exactly the same keys (the values
never influence hit/miss decisions). -/
def cachesAgree (cc wc : Cache) : Prop :=
  ∀ k : List Nat, (List.lookup k cc).isSome ↔ (List.lookup k wc).isSome

theorem lookup_map_replace_isSome (m : Cache) (k k' : List Nat) (v : Nat) :
    (List.lookup k' (m.map (fun p => if p.1 = k then (k, v) else p))).isSome =
      (List.lookup k' m).isSome := by
  induction m with
  | nil => rfl
  | cons p m ih =>
      obtain ⟨pk, pv⟩ := p
      by_cases hp : pk = k
      · subst hp
        simp only [List.map_cons]
        rw [if_pos (show True from trivial)]
        simp only [List.lookup]
        by_cases hk' : (k' == pk) = true
        · simp [hk']
        · simp only [Bool.not_eq_true] at hk'
          simp [hk', ih]
      · simp only [List.map_cons]
        rw [if_neg hp]
        simp only [List.lookup]
        by_cases hk' : (k' == pk) = true
        · simp [hk']
        · simp only [Bool.not_eq_true] at hk'
          simp [hk', ih]

theorem lookup_append_singleton_isSome (m : Cache) (k k' : List Nat) (v : Nat) :
    (List.lookup k' (m ++ [(k, v)])).isSome =
      ((k' = k) || (List.lookup k' m).isSome) := by
  induction m with
  | nil =>
      simp only [List.nil_append, List.lookup]
      by_cases hk' : (k' == k) = true
      · simp [hk', eq_of_beq hk']
      · simp only [Bool.not_eq_true] at hk'
        simp [hk']
        intro hEq
        subst hEq
        simp at hk'
  | cons p m ih =>
      simp only [List.cons_append, List.lookup]
      by_cases hk' : (k' == p.1) = true
      · simp [hk']
      · simp only [Bool.not_eq_true] at hk'
        simp [hk', ih]

theorem lookup_cacheSet_isSome (m : Cache) (k k' : List Nat) (v : Nat) :
    (List.lookup k' (cacheSet m k v)).isSome =
      ((k' = k) || (List.lookup k' m).isSome) := by
  unfold cacheSet
  by_cases hpresent : (List.lookup k m).isSome
  · rw [if_pos hpresent, lookup_map_replace_isSome]
    by_cases hk' : k' = k
    · subst hk'; simp [hpresent]
    · simp [hk']
  · rw [if_neg hpresent, lookup_append_singleton_isSome]

/-- The byte count `writeWzString` actually emits equals the size
`getEncodedStringLength` computes — provided either every code unit is
≤ 127 or some code unit exceeds 255 (for 128..255 the two unicode tests
disagree, see the counterexample). -/
theorem writeWzString_length_eq (key : Nat → Nat) (s : List Nat)
    (hs : (∀ c ∈ s, c ≤ 127) ∨ (∃ c ∈ s, 255 < c)) :
    (writeWzString key s).length = getEncodedStringLength s := by
  by_cases hemp : s = []
  · subst hemp; rfl
  · rw [writeWzString, if_neg hemp, getEncodedStringLength, if_neg hemp]
    rcases hs with hlow | ⟨c, hcmem, hchigh⟩
    · have huni : s.any (fun c => 127 < c) = false := by
        rw [List.any_eq_false]
        intro x hx
        simp only [decide_eq_true_eq]
        exact Nat.not_lt.mpr (hlow x hx)
      have huni' : s.any (fun c => 255 < c) = false := by
        rw [List.any_eq_false]
        intro x hx
        simp only [decide_eq_true_eq]
        have := hlow x hx
        omega
      rw [if_neg (by simp [huni]), huni']
      simp only [List.length_append, encodeAsciiChars_length, Bool.false_eq_true,
        if_false]
      by_cases hbig : 127 < s.length
      · rw [if_pos hbig, if_pos hbig]
        simp
      · rw [if_neg hbig, if_neg hbig]
        simp
    · have huni : s.any (fun c => 127 < c) = true :=
        List.any_eq_true.mpr ⟨c, hcmem, by simp only [decide_eq_true_eq]; omega⟩
      have huni' : s.any (fun c => 255 < c) = true :=
        List.any_eq_true.mpr ⟨c, hcmem, by simp only [decide_eq_true_eq]; omega⟩
      rw [if_pos huni, huni']
      simp only [List.length_append, encodeUnicodeChars_length, if_true]
      by_cases hbig : 127 ≤ s.length
      · rw [if_pos hbig, if_pos (by omega : 126 < s.length)]
        simp only [List.length_cons, int32LE_length]
        omega
      · rw [if_neg hbig, if_neg (by omega : ¬126 < s.length)]
        simp only [List.length_singleton]
        omega

/-! ## Keystream generation (claim C9)

`WzMutableKey.ensureKeySize` / `at` from `wz-crypto.js`.  The state is
the generated byte prefix (`_keys`, `none` before first use).  The AES
block step — `aesEncryptBlock` under the key expansion of the fixed
user key, a pure function of its 16-byte input — is the parameter `E`;
the claim quantifies over request histories for one fixed (IV, user
key), i.e. one fixed `E`, and the theorems hold for every `E` with
16-byte outputs. -/

/-- The 4 KiB generation batch size. -/
def BATCH_SIZE : Nat := 4096

/-- The first block's plaintext: the 4-byte IV tiled to 16 bytes
(`block[j] = iv[j % 4]`). -/
def tileIV (iv : List Nat) : List Nat :=
  (List.range 16).map (fun j => iv.getD (j % 4) 0)

/-- The all-zero-IV ("no encryption") test. -/
def ivAllZero (iv : List Nat) : Bool :=
  iv.getD 0 0 == 0 && iv.getD 1 0 == 0 && iv.getD 2 0 == 0 && iv.getD 3 0 == 0

/-- The chained generation loop: from the previous 16-byte block
`prev`, produce `k` further blocks, each the encryption of the one
before (`block.set(newKeys.subarray(i - 16, i)); aesEncryptBlock`). -/
def genBlocks (E : List Nat → List Nat) : List Nat → Nat → List Nat
  | _, 0 => []
  | prev, k + 1 => E prev ++ genBlocks E (E prev) k

/-- `ensureKeySize(size)`: return early when enough bytes exist; round
the request up to a whole 4 KiB batch; an all-zero IV yields an
all-zero array of that size; otherwise keep the existing bytes and
extend by chained block encryptions, the very first block encrypting
the tiled IV. -/
def ensureKeySize (E : List Nat → List Nat) (iv : List Nat) (size : Nat)
    (st : Option (List Nat)) : Option (List Nat) :=
  match st with
  | some l =>
    if size ≤ l.length then some l
    else
      let size' := ((size + BATCH_SIZE - 1) / BATCH_SIZE) * BATCH_SIZE
      if ivAllZero iv then some (List.replicate size' 0)
      else
        some (l ++ genBlocks E
          (if l.length = 0 then tileIV iv else l.drop (l.length - 16))
          ((size' - l.length) / 16))
  | none =>
      let size' := ((size + BATCH_SIZE - 1) / BATCH_SIZE) * BATCH_SIZE
      if ivAllZero iv then some (List.replicate size' 0)
      else some (genBlocks E (tileIV iv) (size' / 16))

/-- `at(index)`: ensure `index + 1` bytes, then read byte `index`. -/
def keyAt (E : List Nat → List Nat) (iv : List Nat) (index : Nat)
    (st : Option (List Nat)) : Nat × Option (List Nat) :=
  let st' := ensureKeySize E iv (index + 1) st
  ((match st' with | some l => l.getD index 0 | none => 0), st')

/-- Block `n` of the canonical chained stream. -/
def blockN (E : List Nat → List Nat) (iv : List Nat) : Nat → List Nat
  | 0 => E (tileIV iv)
  | n + 1 => E (blockN E iv n)

/-- The concatenation of the first `m` canonical blocks. -/
def keysUpTo (E : List Nat → List Nat) (iv : List Nat) : Nat → List Nat
  | 0 => []
  | m + 1 => keysUpTo E iv m ++ blockN E iv m

/-- The canonical keystream byte at index `i`: a function of the block
function (i.e. of the user key), the IV and `i` alone. -/
def streamByte (E : List Nat → List Nat) (iv : List Nat) (i : Nat) : Nat :=
  if ivAllZero iv then 0 else (blockN E iv (i / 16)).getD (i % 16) 0

/-- A request against the generator: a byte-at-index read or a bare
extension. -/
inductive KeyReq where
  | atIdx (i : Nat)
  | ensure (n : Nat)

/-- Run a request history against a generator state, collecting the
bytes the `at` requests return. -/
def runKeyReqs (E : List Nat → List Nat) (iv : List Nat) :
    List KeyReq → Option (List Nat) → List Nat × Option (List Nat)
  | [], st => ([], st)
  | .atIdx i :: rs, st =>
      let p := keyAt E iv i st
      let q := runKeyReqs E iv rs p.2
      (p.1 :: q.1, q.2)
  | .ensure n :: rs, st => runKeyReqs E iv rs (ensureKeySize E iv n st)

/-- The history-independent prediction: each `at i` returns the
canonical byte at `i`. -/
def reqOutputs (E : List Nat → List Nat) (iv : List Nat) (rs : List KeyReq) : List Nat :=
  rs.filterMap fun r =>
    match r with
    | .atIdx i => some (streamByte E iv i)
    | .ensure _ => none

/-! ### Keystream lemmas -/

theorem getD_replicate_of_lt {α : Type} (n i : Nat) (a d : α) (h : i < n) :
    (List.replicate n a).getD i d = a := by
  induction n generalizing i with
  | zero => omega
  | succ n ih =>
      cases i with
      | zero => rfl
      | succ i => exact ih i (by omega)

section Keystream

variable (E : List Nat → List Nat) (iv : List Nat)

theorem blockN_length (hE : ∀ b, (E b).length = 16) (n : Nat) :
    (blockN E iv n).length = 16 := by
  cases n with
  | zero => exact hE _
  | succ n => exact hE _

theorem keysUpTo_length (hE : ∀ b, (E b).length = 16) (m : Nat) :
    (keysUpTo E iv m).length = 16 * m := by
  induction m with
  | zero => rfl
  | succ m ih =>
      simp only [keysUpTo, List.length_append, ih, blockN_length E iv hE]
      omega

/-- `E` applied to the loop's start block is the next canonical block:
the start block is the tiled IV when nothing exists yet, else the last
generated block. -/
def prevOf : Nat → List Nat
  | 0 => tileIV iv
  | m + 1 => blockN E iv m

theorem E_prevOf (m : Nat) : E (prevOf E iv m) = blockN E iv m := by
  cases m with
  | zero => rfl
  | succ m => rfl

theorem keysUpTo_append_genBlocks (k : Nat) :
    ∀ m, keysUpTo E iv m ++ genBlocks E (prevOf E iv m) k = keysUpTo E iv (m + k) := by
  induction k with
  | zero => intro m; simp [genBlocks]
  | succ k ih =>
      intro m
      simp only [genBlocks, E_prevOf]
      rw [← List.append_assoc,
        show keysUpTo E iv m ++ blockN E iv m = keysUpTo E iv (m + 1) from rfl,
        show blockN E iv m = prevOf E iv (m + 1) from rfl, ih (m + 1)]
      congr 1
      omega

theorem keysUpTo_drop_last (hE : ∀ b, (E b).length = 16) (m : Nat) :
    (keysUpTo E iv (m + 1)).drop ((keysUpTo E iv (m + 1)).length - 16) = blockN E iv m := by
  have hlen : (keysUpTo E iv (m + 1)).length = 16 * (m + 1) := keysUpTo_length E iv hE _
  rw [hlen]
  show (keysUpTo E iv m ++ blockN E iv m).drop (16 * (m + 1) - 16) = blockN E iv m
  have h16 : 16 * (m + 1) - 16 = (keysUpTo E iv m).length := by
    rw [keysUpTo_length E iv hE]; omega
  rw [h16, List.drop_left]

theorem keysUpTo_prefix (a : Nat) :
    ∀ b, a ≤ b → ∃ t, keysUpTo E iv b = keysUpTo E iv a ++ t := by
  intro b
  induction b with
  | zero => intro h; exact ⟨[], by simp [show a = 0 by omega]⟩
  | succ b ih =>
      intro h
      by_cases hab : a = b + 1
      · exact ⟨[], by simp [hab]⟩
      · obtain ⟨t, ht⟩ := ih (by omega)
        exact ⟨t ++ blockN E iv b, by simp [keysUpTo, ht]⟩

theorem keysUpTo_getD (hE : ∀ b, (E b).length = 16) (m i : Nat) (h : i < 16 * m) :
    (keysUpTo E iv m).getD i 0 = (blockN E iv (i / 16)).getD (i % 16) 0 := by
  have hq : i / 16 + 1 ≤ m := by omega
  obtain ⟨t, ht⟩ := keysUpTo_prefix E iv (i / 16 + 1) m hq
  rw [ht, List.getD_append _ _ _ _ (by rw [keysUpTo_length E iv hE]; omega)]
  show (keysUpTo E iv (i / 16) ++ blockN E iv (i / 16)).getD i 0 = _
  rw [List.getD_append_right _ _ _ _ (by rw [keysUpTo_length E iv hE]; omega),
    keysUpTo_length E iv hE]
  congr 1
  omega

/-- The state invariant: the generated bytes are always a prefix of the
canonical stream (an all-zero array for the zero IV, whole canonical
blocks otherwise). -/
def GoodKeys (st : Option (List Nat)) : Prop :=
  ∀ l, st = some l →
    (ivAllZero iv = true ∧ l = List.replicate l.length 0) ∨
    (ivAllZero iv = false ∧ ∃ m, l = keysUpTo E iv m)

theorem goodKeys_none : GoodKeys E iv none := by
  intro l h
  exact Option.noConfusion h

theorem size_le_batched (size : Nat) :
    size ≤ ((size + BATCH_SIZE - 1) / BATCH_SIZE) * BATCH_SIZE := by
  simp only [BATCH_SIZE]
  omega

theorem dvd16_batched (size : Nat) :
    16 ∣ ((size + BATCH_SIZE - 1) / BATCH_SIZE) * BATCH_SIZE := by
  simp only [BATCH_SIZE]
  exact Dvd.dvd.mul_left (by norm_num) _

theorem ensureKeySize_good (hE : ∀ b, (E b).length = 16) (size : Nat)
    (st : Option (List Nat)) (hst : GoodKeys E iv st) :
    GoodKeys E iv (ensureKeySize E iv size st) ∧
    ∀ l, ensureKeySize E iv size st = some l → size ≤ l.length := by
  cases st with
  | none =>
      simp only [ensureKeySize]
      by_cases hz : ivAllZero iv = true
      · rw [if_pos hz]
        constructor
        · intro l hl
          cases hl
          exact Or.inl ⟨hz, by simp⟩
        · intro l hl
          cases hl
          simp only [List.length_replicate]
          exact size_le_batched size
      · rw [if_neg hz]
        have hgen : genBlocks E (tileIV iv)
            ((((size + BATCH_SIZE - 1) / BATCH_SIZE) * BATCH_SIZE) / 16) =
            keysUpTo E iv ((((size + BATCH_SIZE - 1) / BATCH_SIZE) * BATCH_SIZE) / 16) := by
          have := keysUpTo_append_genBlocks E iv
            ((((size + BATCH_SIZE - 1) / BATCH_SIZE) * BATCH_SIZE) / 16) 0
          simpa [keysUpTo, prevOf] using this
        constructor
        · intro l hl
          cases hl
          exact Or.inr ⟨Bool.eq_false_iff.mpr (fun h => hz h), _, hgen⟩
        · intro l hl
          cases hl
          rw [hgen, keysUpTo_length E iv hE]
          obtain ⟨c, hc⟩ := dvd16_batched size
          rw [hc, Nat.mul_div_cancel_left _ (by norm_num)]
          rw [← hc]
          exact size_le_batched size
  | some l₀ =>
      simp only [ensureKeySize]
      by_cases hle : size ≤ l₀.length
      · rw [if_pos hle]
        refine ⟨?_, ?_⟩
        · intro l hl
          cases hl
          exact hst l₀ rfl
        · intro l hl
          cases hl
          exact hle
      · rw [if_neg hle]
        by_cases hz : ivAllZero iv = true
        · rw [if_pos hz]
          constructor
          · intro l hl
            cases hl
            exact Or.inl ⟨hz, by simp⟩
          · intro l hl
            cases hl
            simp only [List.length_replicate]
            exact size_le_batched size
        · rw [if_neg hz]
          rcases hst l₀ rfl with ⟨hziv, _⟩ | ⟨_, m, hm⟩
          · exact absurd hziv hz
          · subst hm
            have h16len : (keysUpTo E iv m).length = 16 * m := keysUpTo_length E iv hE m
            have hprev : (if (keysUpTo E iv m).length = 0 then tileIV iv
                else (keysUpTo E iv m).drop ((keysUpTo E iv m).length - 16)) =
                prevOf E iv m := by
              cases m with
              | zero =>
                  rw [if_pos (by simp [keysUpTo])]
                  rfl
              | succ m =>
                  rw [if_neg (by rw [h16len]; omega)]
                  exact keysUpTo_drop_last E iv hE m
            rw [hprev]
            set size' := ((size + BATCH_SIZE - 1) / BATCH_SIZE) * BATCH_SIZE with hsize'
            have hdvd : 16 ∣ size' := dvd16_batched size
            have hbig : size ≤ size' := size_le_batched size
            have hlen_lt : (keysUpTo E iv m).length < size' := by omega
            have hkdiv : 16 ∣ (size' - (keysUpTo E iv m).length) := by
              obtain ⟨c, hc⟩ := hdvd
              rw [hc, h16len]
              exact Nat.dvd_sub' (Dvd.intro c rfl) (Dvd.intro m rfl)
            have happ := keysUpTo_append_genBlocks E iv
              ((size' - (keysUpTo E iv m).length) / 16) m
            constructor
            · intro l hl
              cases hl
              exact Or.inr ⟨Bool.eq_false_iff.mpr (fun h => hz h), _, happ⟩
            · intro l hl
              cases hl
              rw [happ, keysUpTo_length E iv hE]
              obtain ⟨c, hc⟩ := hkdiv
              rw [h16len] at hc
              omega

theorem ensureKeySize_ne_none (size : Nat) (st : Option (List Nat)) :
    ensureKeySize E iv size st ≠ none := by
  cases st with
  | none =>
      simp only [ensureKeySize]
      by_cases hz : ivAllZero iv = true
      · simp [hz]
      · simp [hz]
  | some l₀ =>
      simp only [ensureKeySize]
      by_cases hle : size ≤ l₀.length
      · simp [hle]
      · by_cases hz : ivAllZero iv = true
        · simp [hle, hz]
        · simp [hle, hz]

theorem keyAt_good (hE : ∀ b, (E b).length = 16) (i : Nat)
    (st : Option (List Nat)) (hst : GoodKeys E iv st) :
    (keyAt E iv i st).1 = streamByte E iv i ∧ GoodKeys E iv (keyAt E iv i st).2 := by
  obtain ⟨hgood, hlen⟩ := ensureKeySize_good E iv hE (i + 1) st hst
  unfold keyAt
  refine ⟨?_, hgood⟩
  cases hens : ensureKeySize E iv (i + 1) st with
  | none => exact absurd hens (ensureKeySize_ne_none E iv _ st)
  | some l =>
      simp only [hens]
      have hl := hlen l hens
      rcases hgood l hens with ⟨hz, hrep⟩ | ⟨hz, m, hm⟩
      · rw [streamByte, if_pos hz, hrep]
        exact getD_replicate_of_lt _ _ _ _ (by omega)
      · rw [streamByte, if_neg (by simp [hz]), hm]
        subst hm
        rw [keysUpTo_length E iv hE] at hl
        exact keysUpTo_getD E iv hE m i (by omega)

theorem runKeyReqs_canonical (hE : ∀ b, (E b).length = 16) (rs : List KeyReq) :
    ∀ st, GoodKeys E iv st →
      (runKeyReqs E iv rs st).1 = reqOutputs E iv rs ∧
      GoodKeys E iv (runKeyReqs E iv rs st).2 := by
  induction rs with
  | nil => intro st hst; exact ⟨rfl, hst⟩
  | cons r rs ih =>
      intro st hst
      cases r with
      | atIdx i =>
          obtain ⟨hbyte, hgood⟩ := keyAt_good E iv hE i st hst
          obtain ⟨hout, hgood'⟩ := ih _ hgood
          simp only [runKeyReqs, reqOutputs, List.filterMap_cons]
          exact ⟨by rw [hbyte, hout]; rfl, hgood'⟩
      | ensure n =>
          obtain ⟨hgood, _⟩ := ensureKeySize_good E iv hE n st hst
          obtain ⟨hout, hgood'⟩ := ih _ hgood
          simp only [runKeyReqs, reqOutputs, List.filterMap_cons]
          exact ⟨hout, hgood'⟩

end Keystream

/-- **C9.** For a fixed IV and block function (i.e. a fixed user key),
the byte `at(i)` returns is `streamByte E iv i` — a function of
(IV, key, i) alone — under *every* request history: any order,
interleaving, or batch sizes of byte-at-index and extend requests on a
fresh generator yield exactly the canonical bytes.  Hence two
generators constructed with the same IV and key return identical bytes
at every index, and extension across any split points reproduces one
uninterrupted generation. -/
theorem keystream_history_independent (E : List Nat → List Nat) (iv : List Nat)
    (hE : ∀ b, (E b).length = 16) (rs : List KeyReq) :
    (runKeyReqs E iv rs none).1 = reqOutputs E iv rs :=
  (runKeyReqs_canonical E iv hE rs none (goodKeys_none E iv)).1

/-- Witness for C9: a block function with 16-byte outputs, a non-zero
IV, and a history mixing reads, a bulk extension crossing a batch
boundary, and a repeated read. -/
theorem keystream_history_independent_witness :
    (∀ b : List Nat, ((fun _ => List.replicate 16 1) b : List Nat).length = 16) ∧
    (runKeyReqs (fun _ => List.replicate 16 1) [1, 2, 3, 4]
        [KeyReq.atIdx 5, KeyReq.ensure 6000, KeyReq.atIdx 4100, KeyReq.atIdx 5] none).1 =
      reqOutputs (fun _ => List.replicate 16 1) [1, 2, 3, 4]
        [KeyReq.atIdx 5, KeyReq.ensure 6000, KeyReq.atIdx 4100, KeyReq.atIdx 5] :=
  ⟨fun _ => (by decide : (List.replicate (16 : Nat) (1 : Nat)).length = 16),
    keystream_history_independent _ _
      (fun _ => (by decide : (List.replicate (16 : Nat) (1 : Nat)).length = 16)) _⟩

/-! ## UOL parsing (claim C6)

The `'UOL'` case of `extractMore` from the image-property parser: after
the extended-type name, skip one unknown byte, then read a value
discriminator byte; `0` selects an inline encrypted string, `1` a
string at `offset + readInt32()`, and anything else yields the empty
string. -/

/-- `readWzStringAtOffset(offset)`: seek to `offset - startOffset`, read
an encrypted string there (the caller's position is restored by
construction).  A negative seek target or a failed read is a decode
error. -/
def readWzStringAtOffset (key : Nat → Nat) (buf : List Nat) (startOffset : Nat)
    (absOffset : Int) : Option (List Nat) :=
  if 0 ≤ absOffset - (startOffset : Int) then
    match readWzString key (buf.drop (absOffset - (startOffset : Int)).toNat) with
    | some (s, _) => some s
    | none => none
  else none

/-- The `'UOL'` body of `extractMore`, positioned at `pos` within `buf`:
one unknown byte, then the value discriminator. -/
def parseUOLValue (key : Nat → Nat) (buf : List Nat) (startOffset offset pos : Nat) :
    Option (List Nat) :=
  match buf.drop pos with
  | [] => none
  | _unknown :: l1 =>
    match l1 with
    | [] => none
    | b :: l2 =>
      if b = 0 then (readWzString key l2).map (fun r => r.1)
      else if b = 1 then
        match readInt32L l2 with
        | none => none
        | some (n, _) => readWzStringAtOffset key buf startOffset ((offset : Int) + n)
      else some []

/-! ### Claim theorems for C5, C7, C8, C10 -/

/-- **C7 (counterexample).** Decoding the 2×2 BGRA4444 payload
`0F 0F F0 F0 00 FF FF 00` does *not* yield the pixel list the claim
states: the word `0x0F0F` has `b = 0xF, g = 0, r = 0xF, a = 0`, i.e.
RGBA `(255,0,255,0)`, not `(255,255,255,0)`. -/
theorem decodeBGRA4444_claimed_pixels_wrong :
    decodeBGRA4444 [0x0F, 0x0F, 0xF0, 0xF0, 0x00, 0xFF, 0xFF, 0x00] 2 2 ≠
      [255, 255, 255, 0, 0, 0, 0, 255, 255, 0, 0, 255, 0, 255, 255, 0] := by
  decide

/-- **C7 (amended).** Decoding the 2×2 BGRA4444 payload
`0F 0F F0 F0 00 FF FF 00` yields the row-major RGBA8888 pixels
`(255,0,255,0), (0,255,0,255), (255,0,0,255), (0,255,255,0)`, each
channel obtained by expanding its 4-bit nibble `n` to `n | (n << 4)`. -/
theorem decodeBGRA4444_2x2_pixels :
    decodeBGRA4444 [0x0F, 0x0F, 0xF0, 0xF0, 0x00, 0xFF, 0xFF, 0x00] 2 2 =
      [255, 0, 255, 0, 0, 255, 0, 255, 255, 0, 0, 255, 0, 255, 255, 0] := by
  decide

/-- **C5 (counterexample).** The version header `repackWzFile` computes
for patch version 83 is not `0xCD`. -/
theorem versionHeader83_not_0xCD : wzVersionHeaderFor 83 ≠ 0xCD := by decide

/-- **C8 (counterexample).** Adding the same child to the same parent
twice (`p.addChild(c); p.addChild(c)`) leaves `c` twice in `p`'s child
sequence while `c.parent = p`, violating the parent/child invariant. -/
theorem double_addChild_breaks_invariant :
    ¬ ParentChildInv (applyOps [TreeOp.add 0 1, TreeOp.add 0 1] initForest) := by
  intro h
  have h1 : (applyOps [TreeOp.add 0 1, TreeOp.add 0 1] initForest).parent 1 = some 0 := rfl
  have h2 := h 1 0 h1
  have h3 : (applyOps [TreeOp.add 0 1, TreeOp.add 0 1] initForest).children 0 = [1, 1] := rfl
  rw [h3] at h2
  exact absurd h2 (by decide)

/-- **C8 (amended).** For every forest reachable from freshly
constructed nodes by `addChild`/`removeChild` sequences in which no
`addChild` call adds a child already present in that parent's child
sequence, every node whose parent reference is non-null occurs exactly
once in that parent's child sequence.  (Adding a child that already has
a *different* parent is permitted and preserves the invariant; adding
the same child to the same parent twice is the excluded case, which the
counterexample shows violates it.) -/
theorem guarded_addChild_removeChild_invariant (ops : List TreeOp)
    (hg : GuardedOps ops initForest) :
    ParentChildInv (applyOps ops initForest) :=
  guardedOps_preserve_inv initForest_inv hg

/-- Witness for C8: re-parenting node 1 from parent 0 to parent 2 is a
guarded sequence, and the resulting forest satisfies the invariant. -/
theorem guarded_addChild_removeChild_invariant_witness :
    GuardedOps [TreeOp.add 0 1, TreeOp.add 2 1] initForest ∧
    ParentChildInv (applyOps [TreeOp.add 0 1, TreeOp.add 2 1] initForest) :=
  have hg : GuardedOps [TreeOp.add 0 1, TreeOp.add 2 1] initForest :=
    ⟨by decide, by decide, trivial⟩
  ⟨hg, guarded_addChild_removeChild_invariant _ hg⟩

/-- **C10.** `p.removeChild(c)` with `c` not in `p`'s child sequence
changes nothing at all: the entire forest state (all child sequences
and all parent references, including `c`'s) is unchanged. -/
theorem removeChild_not_mem_noop (p c : Nat) (s : Forest)
    (h : c ∉ s.children p) : removeChild p c s = s := by
  simp [removeChild, h]

/-- Witness for C10: node 1 has parent 0 (pointing at *some other*
node), and `removeChild 2 1` leaves the forest unchanged. -/
theorem removeChild_not_mem_noop_witness :
    1 ∉ (addChild 0 1 initForest).children 2 ∧
    removeChild 2 1 (addChild 0 1 initForest) = addChild 0 1 initForest :=
  have h : 1 ∉ (addChild 0 1 initForest).children 2 := by decide
  ⟨h, removeChild_not_mem_noop 2 1 _ h⟩

/-- **C4.** Writing any UTF-16 string with the encrypted-string writer
and reading the emitted bytes back under the same keystream returns the
string (leaving trailing bytes unconsumed), and the reader takes the
unicode (16-bit) branch exactly when the writer selected it and the
8-bit branch exactly when the writer selected it.  The length bound
reflects the int32 length prefix (JS engines cap string lengths far
below 2^31). -/
theorem writeWzString_readWzString_roundtrip (key : Nat → Nat) (s tail : List Nat)
    (hk : ∀ i, key i < 256) (hs : ∀ c ∈ s, c < 65536) (hlen : s.length < 2147483648) :
    readWzString key (writeWzString key s ++ tail) = some (s, tail) ∧
    readerBranch (writeWzString key s ++ tail) = writerBranch s :=
  ⟨readWzString_writeWzString key s tail hk hs hlen, readerBranch_writeWzString key s tail⟩

/-- Witness for C4 at a concrete string mixing ASCII and high code
units (forcing the unicode branch) under the all-zero keystream. -/
theorem writeWzString_readWzString_roundtrip_witness :
    (∀ c ∈ [72, 233, 40000], c < 65536) ∧
    (readWzString (fun _ => 0) (writeWzString (fun _ => 0) [72, 233, 40000] ++ [9, 9]) =
        some ([72, 233, 40000], [9, 9]) ∧
      readerBranch (writeWzString (fun _ => 0) [72, 233, 40000] ++ [9, 9]) =
        writerBranch [72, 233, 40000]) :=
  ⟨by decide, writeWzString_readWzString_roundtrip (fun _ => 0) [72, 233, 40000] [9, 9]
    (fun _ => (by decide : (0 : Nat) < 256)) (by decide) (by decide)⟩

/-- **C1 (counterexample).** For the one-character name with code unit
233 (range 128..255) and empty caches, `getWzObjectValueLength`
computes 3 bytes (its `charCodeAt > 255` test says 8-bit: 1 type byte +
1 prefix + 1 char) but `writeWzObjectValue` emits 4 bytes
(`writeWzString`'s `charCodeAt > 127` test says unicode: 1 type byte +
1 prefix + 2 bytes), so computed sizes do not match emitted sizes. -/
theorem getWzObjectValueLength_mismatch :
    (getWzObjectValueLength [233] 4 []).1 = 3 ∧
    ((writeWzObjectValue (fun _ => 0) 0 0 [233] 4 []).1).length = 4 ∧
    (getWzObjectValueLength [233] 4 []).1 ≠
      ((writeWzObjectValue (fun _ => 0) 0 0 [233] 4 []).1).length := by
  decide

/-- **C1 (amended).** For every directory-entry name whose code units
are all ≤ 127, or with some unit above 255 — i.e. except when the
highest unit lies in 128..255, where the two unicode tests
(`> 255` in `getEncodedStringLength` vs `> 127` in `writeWzString`)
disagree — the size-calculation helper with its mirrored interning
cache returns exactly the byte count the writer's name-emitting routine
produces at any corresponding cache state, and the two caches remain in
correspondence. -/
theorem getWzObjectValueLength_matches_writeWzObjectValue (key : Nat → Nat)
    (pos fStart type : Nat) (s : List Nat) (cc wc : Cache)
    (hAgree : cachesAgree cc wc)
    (hs : (∀ c ∈ s, c ≤ 127) ∨ (∃ c ∈ s, 255 < c)) :
    (getWzObjectValueLength s type cc).1 =
      ((writeWzObjectValue key pos fStart s type wc).1).length ∧
    cachesAgree (getWzObjectValueLength s type cc).2
      ((writeWzObjectValue key pos fStart s type wc).2) := by
  unfold getWzObjectValueLength writeWzObjectValue
  have hkeys := hAgree (storeKey type s)
  by_cases hhit : (decide (4 < s.length) && (List.lookup (storeKey type s) cc).isSome) = true
  · have hl := (Bool.and_eq_true _ _).mp hhit
    have hhit' : (decide (4 < s.length) && (List.lookup (storeKey type s) wc).isSome) = true :=
      (Bool.and_eq_true _ _).mpr ⟨hl.1, hkeys.mp hl.2⟩
    rw [if_pos hhit, if_pos hhit']
    exact ⟨by simp, hAgree⟩
  · have hhit' : ¬(decide (4 < s.length) && (List.lookup (storeKey type s) wc).isSome) = true := by
      intro h
      have hl := (Bool.and_eq_true _ _).mp h
      exact hhit ((Bool.and_eq_true _ _).mpr ⟨hl.1, hkeys.mpr hl.2⟩)
    rw [if_neg hhit, if_neg hhit']
    refine ⟨?_, ?_⟩
    · simp only [List.length_cons, writeWzString_length_eq key s hs]
      omega
    · by_cases hwc : (List.lookup (storeKey type s) wc).isSome
      · rw [if_pos hwc]
        intro k'
        rw [lookup_cacheSet_isSome]
        simp only [Bool.or_eq_true, decide_eq_true_eq]
        constructor
        · rintro (rfl | h)
          · exact hwc
          · exact (hAgree k').mp h
        · intro h
          exact Or.inr ((hAgree k').mpr h)
      · rw [if_neg hwc]
        intro k'
        rw [lookup_cacheSet_isSome, lookup_cacheSet_isSome]
        simp only [Bool.or_eq_true, decide_eq_true_eq]
        constructor
        · rintro (rfl | h)
          · exact Or.inl rfl
          · exact Or.inr ((hAgree k').mp h)
        · rintro (rfl | h)
          · exact Or.inl rfl
          · exact Or.inr ((hAgree k').mpr h)

/-- Witness for C1 at an all-ASCII five-character name with empty
caches (directory-writer position 62, header start 60). -/
theorem getWzObjectValueLength_matches_writeWzObjectValue_witness :
    cachesAgree [] [] ∧
    ((getWzObjectValueLength [110, 97, 109, 101, 49] 3 []).1 =
        ((writeWzObjectValue (fun _ => 0) 62 60 [110, 97, 109, 101, 49] 3 []).1).length ∧
      cachesAgree (getWzObjectValueLength [110, 97, 109, 101, 49] 3 []).2
        ((writeWzObjectValue (fun _ => 0) 62 60 [110, 97, 109, 101, 49] 3 []).2)) :=
  have hAgree : cachesAgree [] [] := fun _ => Iff.rfl
  ⟨hAgree, getWzObjectValueLength_matches_writeWzObjectValue (fun _ => 0) 62 60 3
    [110, 97, 109, 101, 49] [] [] hAgree (Or.inl (by decide))⟩

/-- **C6 (counterexample).** A UOL body whose value discriminator byte
is 0x73, followed by a valid inline encrypted string ("A"), parses to
the empty string — not to the inline string the extended-name
discriminator rule would select. -/
theorem parseUOLValue_0x73_yields_empty :
    parseUOLValue (fun _ => 0) [0x00, 0x73, 0xFF, 0xEB] 0 0 0 = some [] ∧
    readWzString (fun _ => 0) [0xFF, 0xEB] = some ([65], []) ∧
    some ([] : List Nat) ≠ some [65] := by
  decide

/-- **C6 (amended).** The UOL value discriminator is *not* interpreted
like the extended-name discriminator: byte 0x00 selects the inline
encrypted string and 0x01 the offset-referenced string, but every other
byte — including 0x73 and 0x1B — yields the empty string. -/
theorem parseUOLValue_dispatch (key : Nat → Nat) (s tail : List Nat) (u b : Nat)
    (hk : ∀ i, key i < 256) (hs : ∀ c ∈ s, c < 65536) (hlen : s.length < 2147483648)
    (hb0 : b ≠ 0) (hb1 : b ≠ 1) :
    parseUOLValue key (u :: 0 :: (writeWzString key s ++ tail)) 0 0 0 = some s ∧
    parseUOLValue key (u :: b :: (writeWzString key s ++ tail)) 0 0 0 = some [] := by
  constructor
  · simp only [parseUOLValue, List.drop_zero]
    rw [readWzString_writeWzString key s tail hk hs hlen]
    rfl
  · simp only [parseUOLValue, List.drop_zero]
    rw [if_neg hb0, if_neg hb1]

/-! ## The archive writer and `repackWzFile` (claim C2)

The binary writer module: `BinaryBuffer`/`WzBinaryWriter` state is the
byte list written so far (position = length) plus the string cache;
`serializeImageBinary`, `calcDirSize`, `setDirOffsets`, `setImgOffsets`,
`writeDirectory`, `writeImageData` and `repackWzFile` follow the source
pass for pass.  The per-image `(data, checksum)` map is realised by
calling the (deterministic) `serializeImageBinary` where the source
reads the map.  The embedding covers the node kinds the claims
exercise; `float`/`double`/`canvas`/`sound` payloads (host IEEE-754 and
base64/deflate machinery) are not constructed by any claim and are
omitted from the node type, so the corresponding writer dispatch arms
(and only those) have no Lean counterpart. -/

/-- Lazy-load provenance of an image parsed from a binary archive
(`_binarySource`): the slice of the source buffer plus the layout
parameters recorded at parse time. -/
structure BinarySource where
  offset : Nat
  length : Nat
  hash : Nat
  headerFStart : Nat

/-- The value-bearing part of a tree node. -/
inductive NodeKind where
  | file
  | dir
  | image
  | sub
  | nullProp
  | intProp (v : Int)
  | shortProp (v : Int)
  | longProp (v : Int)
  | stringProp (s : List Nat)
  | uolProp (s : List Nat)
  | vectorProp (x y : Int)
  | convex

/-- A tree node: name, kind, `modified` flag, optional binary
provenance, ordered children. -/
inductive WzNode where
  | mk (name : List Nat) (kind : NodeKind) (modified : Bool)
      (src : Option BinarySource) (children : List WzNode)

def WzNode.name : WzNode → List Nat
  | .mk n _ _ _ _ => n

def WzNode.kind : WzNode → NodeKind
  | .mk _ k _ _ _ => k

def WzNode.modified : WzNode → Bool
  | .mk _ _ m _ _ => m

def WzNode.src : WzNode → Option BinarySource
  | .mk _ _ _ s _ => s

def WzNode.children : WzNode → List WzNode
  | .mk _ _ _ _ c => c

/-- `"Property"`. -/
def strProperty : List Nat := [80, 114, 111, 112, 101, 114, 116, 121]

/-- `"Shape2D#Vector2D"`. -/
def strVector2D : List Nat :=
  [83, 104, 97, 112, 101, 50, 68, 35, 86, 101, 99, 116, 111, 114, 50, 68]

/-- `"Shape2D#Convex2D"`. -/
def strConvex2D : List Nat :=
  [83, 104, 97, 112, 101, 50, 68, 35, 67, 111, 110, 118, 101, 120, 50, 68]

/-- `"UOL"`. -/
def strUOL : List Nat := [85, 79, 76]

/-- `"Package file v1.0 Copyright 2002 Wizet, ZMS"`. -/
def copyrightBytes : List Nat :=
  [80, 97, 99, 107, 97, 103, 101, 32, 102, 105, 108, 101, 32, 118, 49, 46, 48, 32,
   67, 111, 112, 121, 114, 105, 103, 104, 116, 32, 50, 48, 48, 50, 32, 87, 105,
   122, 101, 116, 44, 32, 90, 77, 83]

/-- Writer state: the bytes written so far (`pos` = length) and the
string-interning cache. -/
structure WState where
  bytes : List Nat
  cache : Cache

/-- Append emitted bytes. -/
def wAppend (w : WState) (bs : List Nat) : WState :=
  { w with bytes := w.bytes ++ bs }

/-- `setInt32(pos, v)`: patch 4 bytes in place (the extended-property
size placeholder). -/
def setInt32At (w : WState) (pos : Nat) (v : Int) : WState :=
  { w with bytes := w.bytes.take pos ++ int32LE v ++ w.bytes.drop (pos + 4) }

/-- `writeCompressedInt(v)`: one signed byte, or the sentinel -128
followed by an int32. -/
def writeCompressedInt (v : Int) : List Nat :=
  if 127 < v ∨ v ≤ -128 then sbyteByte (-128) :: int32LE v else [sbyteByte v]

/-- `writeInt64` (little-endian, two 32-bit stores). -/
def int64LE (v : Int) : List Nat := natLE 8 (v % ((18446744073709551616 : Nat) : Int)).toNat

/-- `writeCompressedLong(v)`. -/
def writeCompressedLong (v : Int) : List Nat :=
  if 127 < v ∨ v ≤ -128 then sbyteByte (-128) :: int64LE v else [sbyteByte v]

/-- `ToInt32` (`node.value | 0`). -/
def asInt32 (v : Int) : Int := toInt32 (v % ((M32 : Nat) : Int)).toNat

/-- `writeStringValue(str, withoutOffset, withOffset)`: inline with the
`withoutOffset` discriminator on a miss (caching the string's buffer
position), or the `withOffset` discriminator plus a 4-byte offset on a
hit (strings longer than 4 only). -/
def writeStringValue (key : Nat → Nat) (pos : Nat) (s : List Nat)
    (withoutOffset withOffset : Nat) (cache : Cache) : List Nat × Cache :=
  if 4 < s.length && (List.lookup s cache).isSome then
    ((withOffset &&& 0xFF) :: int32LE (((List.lookup s cache).getD 0 : Nat) : Int), cache)
  else
    ((withoutOffset &&& 0xFF) :: writeWzString key s,
      if (List.lookup s cache).isSome then cache else cacheSet cache s (pos + 1))

/-- Stateful wrapper for `writeStringValue`. -/
def writeStringValueW (key : Nat → Nat) (w : WState) (s : List Nat)
    (withoutOffset withOffset : Nat) : WState :=
  let r := writeStringValue key w.bytes.length s withoutOffset withOffset w.cache
  { bytes := w.bytes ++ r.1, cache := r.2 }

/-- Stateful wrapper for `writeWzObjectValue`. -/
def writeWzObjectValueW (key : Nat → Nat) (fStart : Nat) (w : WState)
    (s : List Nat) (type : Nat) : WState :=
  let r := writeWzObjectValue key w.bytes.length fStart s type w.cache
  { bytes := w.bytes ++ r.1, cache := r.2 }

/-- `isExtendedType` (`sub`, `vector`, `convex`, `uol`; the source list
also names `canvas` and `sound`, absent from this embedding). -/
def isExtendedType : NodeKind → Bool
  | .sub => true
  | .vectorProp _ _ => true
  | .convex => true
  | .uolProp _ => true
  | _ => false

/-- `writePropertyValue` for the non-extended kinds (tag byte then
payload). -/
def writePropertyValue (key : Nat → Nat) (w : WState) (n : WzNode) : WState :=
  match n.kind with
  | .nullProp => wAppend w [0]
  | .shortProp v => wAppend w (2 :: natLE 2 (v % ((65536 : Nat) : Int)).toNat)
  | .intProp v => wAppend w (3 :: writeCompressedInt (asInt32 v))
  | .longProp v => wAppend w (20 :: writeCompressedLong (asInt32 v))
  | .stringProp s => writeStringValueW key (wAppend w [8]) s 0 1
  | _ => wAppend w [0]

mutual

/-- The entry loop of `writePropertyList`: name as a string block, then
tag-dispatched payload; extended kinds get `writeExtendedProperty`'s
tag 9 and int32 size placeholder, patched once the body is written
(that wrapper's body appears inline here so that the recursion is
structural; `writeExtendedProperty` below is the same code as a named
function). -/
def writeEntries (key : Nat → Nat) (w : WState) : List WzNode → WState
  | [] => w
  | n :: rest =>
      let w := writeStringValueW key w n.name 0x00 0x01
      let w :=
        if isExtendedType n.kind then
          let w1 := wAppend w [9]
          let sizePos := w1.bytes.length
          let w2 := wAppend w1 (int32LE 0)
          let w3 := writeExtendedValue key w2 n
          setInt32At w3 sizePos ((w3.bytes.length : Int) - (sizePos : Int) - 4)
        else writePropertyValue key w n
      writeEntries key w rest

/-- `writeExtendedValue`: the type-name string block (discriminators
0x73/0x1B) then the kind-specific body.  The `sub` case contains
`writePropertyList`'s body (reserved uint16, compressed-int count,
entries) inline, again for structural recursion; `writePropertyList`
below is the same code as a named function. -/
def writeExtendedValue (key : Nat → Nat) (w : WState) (n : WzNode) : WState :=
  match n with
  | .mk _ kind _ _ children =>
    match kind with
    | .sub =>
        let w := writeStringValueW key w strProperty 0x73 0x1B
        let w := wAppend w (natLE 2 0)
        let w := wAppend w (writeCompressedInt (children.length : Int))
        writeEntries key w children
    | .vectorProp x y =>
        let w := writeStringValueW key w strVector2D 0x73 0x1B
        wAppend w (writeCompressedInt (asInt32 x) ++ writeCompressedInt (asInt32 y))
    | .convex =>
        let w := writeStringValueW key w strConvex2D 0x73 0x1B
        let w := wAppend w (writeCompressedInt (children.length : Int))
        writeExtendedList key w children
    | .uolProp v =>
        let w := writeStringValueW key w strUOL 0x73 0x1B
        let w := wAppend w [0]
        writeStringValueW key w v 0 1
    | _ =>
        -- default fallback: an empty sub-property
        let w := writeStringValueW key w strProperty 0x73 0x1B
        let w := wAppend w (natLE 2 0)
        wAppend w (writeCompressedInt 0)

/-- The convex child loop (extended values written back to back, no
per-child size prefix). -/
def writeExtendedList (key : Nat → Nat) (w : WState) : List WzNode → WState
  | [] => w
  | n :: rest => writeExtendedList key (writeExtendedValue key w n) rest

end

/-- `writePropertyList`: reserved uint16, compressed-int count, then
the entries. -/
def writePropertyList (key : Nat → Nat) (w : WState) (children : List WzNode) : WState :=
  let w := wAppend w (natLE 2 0)
  let w := wAppend w (writeCompressedInt (children.length : Int))
  writeEntries key w children

/-- `writeExtendedProperty`: tag 9, an int32 size placeholder patched
once the body is written. -/
def writeExtendedProperty (key : Nat → Nat) (w : WState) (n : WzNode) : WState :=
  let w1 := wAppend w [9]
  let sizePos := w1.bytes.length
  let w2 := wAppend w1 (int32LE 0)
  let w3 := writeExtendedValue key w2 n
  setInt32At w3 sizePos ((w3.bytes.length : Int) - (sizePos : Int) - 4)


/-- `(data, checksum)` of a serialized image. -/
structure ImgData where
  data : List Nat
  checksum : Nat
deriving DecidableEq

/-- `computeChecksum`: byte sum folded with `& 0x7FFFFFFF` per step. -/
def computeChecksum (data : List Nat) : Nat :=
  data.foldl (fun sum b => (sum + b) &&& 0x7FFFFFFF) 0

/-- `serializeImageBinary(imageNode, wzKey, originalBuffer)`: an
unmodified image with binary provenance and an available original
buffer is copied byte for byte from the original slice — with no check
of the provenance's hash or header start against anything; otherwise
the image is serialized from the in-memory tree (header `0x73`,
`"Property"`, uint16 0, property list). -/
def serializeImageBinary (img : WzNode) (key : Nat → Nat)
    (originalBuffer : Option (List Nat)) : ImgData :=
  match img.modified, img.src, originalBuffer with
  | false, some src, some buf =>
      let data := (buf.drop src.offset).take src.length
      { data := data, checksum := computeChecksum data }
  | _, _, _ =>
      let w : WState := { bytes := [], cache := [] }
      let w := wAppend w [0x73]
      let w := wAppend w (writeWzString key strProperty)
      let w := wAppend w (natLE 2 0)
      let w := writePropertyList key w img.children
      { data := w.bytes, checksum := computeChecksum w.bytes }

/-- A directory-layout node decorated by the writer's passes: an image
carries its serialized bytes, checksum and assigned data offset; a
directory carries `_wzSize` (entries plus nested image data),
`_wzOffsetSize` (entry bytes only), checksum 0 and its assigned block
offset. -/
inductive DNode where
  | dimg (name : List Nat) (data : List Nat) (checksum : Nat) (offset : Nat)
  | ddir (name : List Nat) (size offsetSize checksum offset : Nat) (children : List DNode)

mutual

/-- `calcDirSize(node, imageDataMap)` with the `_calcStringCache`
threaded in traversal order; returns the decorated node together with
its `size` and `offsetSize` and the updated cache. -/
def calcDirSize (key : Nat → Nat) (origBuf : Option (List Nat)) (n : WzNode)
    (cache : Cache) : DNode × Nat × Nat × Cache :=
  match n with
  | .mk name _ _ _ children =>
    if children.isEmpty then (.ddir name 0 1 0 0 [], 0, 1, cache)
    else
      let entryCountLen := getCompressedIntLength (children.length : Int)
      let r := calcDirEntries key origBuf children cache
      let size := entryCountLen + r.2.1
      let offsetSize := entryCountLen + r.2.2.1
      (.ddir name size offsetSize 0 0 r.1, size, offsetSize, r.2.2.2)

/-- The per-entry loop of `calcDirSize`: directory entries intern their
name with discriminator 3 then recurse; image entries intern with
discriminator 4 and account for the serialized image bytes in `size`
but not in `offsetSize`.  Other node kinds are not directory entries. -/
def calcDirEntries (key : Nat → Nat) (origBuf : Option (List Nat)) :
    List WzNode → Cache → List DNode × Nat × Nat × Cache
  | [], cache => ([], 0, 0, cache)
  | c :: rest, cache =>
      match c.kind with
      | .dir =>
          let rn := getWzObjectValueLength c.name 3 cache
          let rsub := calcDirSize key origBuf c rn.2
          let subD := rsub.1
          let subSize := rsub.2.1
          let rrest := calcDirEntries key origBuf rest rsub.2.2.2
          let entrySize := rn.1 + subSize + getCompressedIntLength (subSize : Int) +
            getCompressedIntLength 0 + 4
          let entryOffsetSize := rn.1 + getCompressedIntLength (subSize : Int) +
            getCompressedIntLength 0 + 4
          (subD :: rrest.1, entrySize + rrest.2.1, entryOffsetSize + rrest.2.2.1, rrest.2.2.2)
      | .image =>
          let rn := getWzObjectValueLength c.name 4 cache
          let img := serializeImageBinary c key origBuf
          let rrest := calcDirEntries key origBuf rest rn.2
          let entrySize := rn.1 + getCompressedIntLength (img.data.length : Int) +
            img.data.length + getCompressedIntLength (img.checksum : Int) + 4
          let entryOffsetSize := rn.1 + getCompressedIntLength (img.data.length : Int) +
            getCompressedIntLength (img.checksum : Int) + 4
          (.dimg c.name img.data img.checksum 0 :: rrest.1,
            entrySize + rrest.2.1, entryOffsetSize + rrest.2.2.1, rrest.2.2.2)
      | _ =>
          calcDirEntries key origBuf rest cache

end

mutual

/-- `setDirOffsets`: assign each directory block its offset, walking
depth-first; each node advances the cursor by its own `offsetSize`
before its subdirectories are placed. -/
def setDirOffsets (d : DNode) (cur : Nat) : DNode × Nat :=
  match d with
  | .dimg n data chk off => (.dimg n data chk off, cur)
  | .ddir name size osize chk _ children =>
      let r := setDirOffsetsList children (cur + osize)
      (.ddir name size osize chk cur r.1, r.2)

def setDirOffsetsList : List DNode → Nat → List DNode × Nat
  | [], cur => ([], cur)
  | c :: rest, cur =>
      match c with
      | .ddir _ _ _ _ _ _ =>
          let r := setDirOffsets c cur
          let rr := setDirOffsetsList rest r.2
          (r.1 :: rr.1, rr.2)
      | img =>
          let rr := setDirOffsetsList rest cur
          (img :: rr.1, rr.2)

end

/-- The summed byte lengths of this directory's *direct* image entries
(what the source's first `setImgOffsets` loop advances the cursor by). -/
def directImagesSize (l : List DNode) : Nat :=
  l.foldl (fun acc c =>
    match c with
    | .dimg _ data _ _ => acc + data.length
    | .ddir _ _ _ _ _ _ => acc) 0

mutual

/-- `setImgOffsets(node, cur)`: the source runs two loops — first every
direct image gets a consecutive offset from `cur`, then every
subdirectory is recursed with the cursor left after all those images.
The single pass here carries both cursors (`imgCur` for images,
`dirCur` starting at `cur + directImagesSize`), assigning exactly the
same offsets. -/
def setImgOffsets (d : DNode) (cur : Nat) : DNode × Nat :=
  match d with
  | .dimg n data chk off => (.dimg n data chk off, cur)
  | .ddir name size osize chk off children =>
      let r := setImgChildren children cur (cur + directImagesSize children)
      (.ddir name size osize chk off r.1, r.2.2)

def setImgChildren : List DNode → Nat → Nat → List DNode × Nat × Nat
  | [], imgCur, dirCur => ([], imgCur, dirCur)
  | .dimg n data chk _ :: rest, imgCur, dirCur =>
      let rr := setImgChildren rest (imgCur + data.length) dirCur
      (.dimg n data chk imgCur :: rr.1, rr.2)
  | c :: rest, imgCur, dirCur =>
      let r := setImgOffsets c dirCur
      let rr := setImgChildren rest imgCur r.2
      (r.1 :: rr.1, rr.2)

end

/-- The 4 bytes `writeOffset` stores (reuses the C3 word). -/
def writeOffsetBytes (fStart hash pos value : Nat) : List Nat :=
  natLE 4 (writeOffsetWord pos fStart hash value)

mutual

/-- `writeDirectory`: entry count, all image entries first, then all
directory entries, then each subdirectory's block depth-first (a single
zero byte for an empty one). -/
def writeDirectory (key : Nat → Nat) (fStart hash : Nat) (w : WState) (d : DNode) : WState :=
  match d with
  | .dimg _ _ _ _ => w
  | .ddir _ _ _ _ _ children =>
      if children.isEmpty then wAppend w [0]
      else
        let w := wAppend w (writeCompressedInt (children.length : Int))
        let w := children.foldl (fun w c =>
          match c with
          | .dimg name data chk off =>
              let w := writeWzObjectValueW key fStart w name 4
              let w := wAppend w (writeCompressedInt (data.length : Int))
              let w := wAppend w (writeCompressedInt (chk : Int))
              wAppend w (writeOffsetBytes fStart hash w.bytes.length off)
          | .ddir _ _ _ _ _ _ => w) w
        let w := children.foldl (fun w c =>
          match c with
          | .ddir name size _ chk off _ =>
              let w := writeWzObjectValueW key fStart w name 3
              let w := wAppend w (writeCompressedInt (size : Int))
              let w := wAppend w (writeCompressedInt (chk : Int))
              wAppend w (writeOffsetBytes fStart hash w.bytes.length off)
          | .dimg _ _ _ _ => w) w
        writeSubDirs key fStart hash w children

def writeSubDirs (key : Nat → Nat) (fStart hash : Nat) (w : WState) :
    List DNode → WState
  | [] => w
  | .ddir name size osize chk off children :: rest =>
      let w :=
        if 0 < size then writeDirectory key fStart hash w (.ddir name size osize chk off children)
        else wAppend w [0]
      writeSubDirs key fStart hash w rest
  | .dimg _ _ _ _ :: rest => writeSubDirs key fStart hash w rest

end

/-- The image-blob loop of `writeImageData` over one directory's
direct children. -/
def writeImageDataImages (w : WState) : List DNode → WState
  | [] => w
  | .dimg _ data _ _ :: rest => writeImageDataImages (wAppend w data) rest
  | _ :: rest => writeImageDataImages w rest

mutual

/-- `writeImageData`: image blobs of this directory in order, then the
subdirectories depth-first. -/
def writeImageData (w : WState) (d : DNode) : WState :=
  match d with
  | .dimg _ data _ _ => wAppend w data
  | .ddir _ _ _ _ _ children =>
      let w := writeImageDataImages w children
      writeImageDataDirs w children

def writeImageDataDirs (w : WState) : List DNode → WState
  | [] => w
  | .ddir name size osize chk off children :: rest =>
      writeImageDataDirs (writeImageData w (.ddir name size osize chk off children)) rest
  | .dimg _ _ _ _ :: rest => writeImageDataDirs w rest

end

mutual

/-- The sum of all serialized image byte lengths (`totalImgSize`). -/
def totalImgSize : DNode → Nat
  | .dimg _ data _ _ => data.length
  | .ddir _ _ _ _ _ children => totalImgSizeList children

def totalImgSizeList : List DNode → Nat
  | [] => 0
  | c :: rest => totalImgSize c + totalImgSizeList rest

end

/-- `repackWzFile(root, options)`: version hash and header, image
serialization, layout (sizes then offsets), then emit — header,
classic version header, directory tree, image data. -/
def repackWzFile (root : WzNode) (gameVersion : Nat) (key : Nat → Nat)
    (is64Bit : Bool) (originalBuffer : Option (List Nat)) : List Nat :=
  let versionHash := versionHashOf gameVersion
  let wzVersionHeader := wzVersionHeaderFor gameVersion
  let copyright := copyrightBytes
  let fStart := 4 + 8 + 4 + copyright.length + 1
  let rcalc := calcDirSize key originalBuffer root []
  let offsetSize := rcalc.2.2.1
  let dirStartOffset := fStart + (if is64Bit then 0 else 2)
  let dirEndOffset := dirStartOffset + offsetSize
  let rdir := setDirOffsets rcalc.1 dirStartOffset
  let rimg := setImgOffsets rdir.1 dirEndOffset
  let decorated := rimg.1
  let totalSize := dirEndOffset + totalImgSize decorated
  let header := [0x50, 0x4B, 0x47, 0x31] ++ int64LE ((totalSize : Int) - (fStart : Int)) ++
    natLE 4 fStart ++ copyright ++ [0]
  let header := header ++ List.replicate (fStart - header.length) 0
  let w0 : WState :=
    { bytes := header ++ (if is64Bit then [] else natLE 2 wzVersionHeader), cache := [] }
  let w1 := writeDirectory key fStart versionHash w0 decorated
  let w1 := { w1 with cache := [] }
  let w2 := writeImageData w1 decorated
  w2.bytes

/-- A one-image tree: the unmodified image `"a.img"` carries the
provenance recorded at parse time — offset 0, length 1 in the source
buffer, version hash 1876 (patch 83), data-section start 60. -/
def exampleImage : WzNode :=
  WzNode.mk [97, 46, 105, 109, 103] .image false (some ⟨0, 1, 1876, 60⟩) []

/-- The root `file` node owning just that image. -/
def exampleRoot : WzNode := WzNode.mk [] .file false none [exampleImage]

set_option maxRecDepth 8000 in
/-- **C2 (counterexample).** Repacking the example tree at patch 84 —
version hash 1877, differing from the provenance hash 1876 recorded in
the image — with the original bytes `[7]` supplied neither fails nor
re-serializes the image: the emitted archive's image-data section is
the original byte `7` copied verbatim (the archive's final byte, the
sole image blob), even though re-serialization from the tree would
produce a different byte string (starting with the 0x73 image header). -/
theorem repackWzFile_verbatim_despite_hash_mismatch :
    versionHashOf 84 ≠ 1876 ∧
    (repackWzFile exampleRoot 84 (fun _ => 0) false (some [7])).drop
        ((repackWzFile exampleRoot 84 (fun _ => 0) false (some [7])).length - 1) = [7] ∧
    (serializeImageBinary exampleImage (fun _ => 0) none).data ≠ [7] := by
  decide

/-- **C2 (amended).** `repackWzFile` performs no layout-parameter
check: whenever original source bytes are supplied, every unmodified
image with binary provenance is serialized as a byte-for-byte copy of
its original slice — regardless of whether the repack's version hash or
data-section start agree with the hash and start recorded in that
provenance — and no MismatchedLayoutParameters failure path exists. -/
theorem serializeImageBinary_verbatim (img : WzNode) (key : Nat → Nat)
    (buf : List Nat) (src : BinarySource)
    (hmod : img.modified = false) (hsrc : img.src = some src) :
    serializeImageBinary img key (some buf) =
      { data := (buf.drop src.offset).take src.length,
        checksum := computeChecksum ((buf.drop src.offset).take src.length) } := by
  obtain ⟨name, kind, modified, osrc, children⟩ := img
  simp only [WzNode.modified] at hmod
  simp only [WzNode.src] at hsrc
  subst hmod
  subst hsrc
  rfl

/-- Witness for C2: the example image with mismatched repack hash is
still copied verbatim from the buffer `[7]`. -/
theorem serializeImageBinary_verbatim_witness :
    exampleImage.modified = false ∧
    exampleImage.src = some ⟨0, 1, 1876, 60⟩ ∧
    serializeImageBinary exampleImage (fun _ => 0) (some [7]) =
      { data := (([7] : List Nat).drop 0).take 1,
        checksum := computeChecksum ((([7] : List Nat).drop 0).take 1) } :=
  ⟨rfl, rfl, serializeImageBinary_verbatim exampleImage (fun _ => 0) [7] ⟨0, 1, 1876, 60⟩ rfl rfl⟩

/-! ## Hint-free version and variant detection (claim C5)

The detection path of `parseWzFile` (`wz-file.js`) with
`mapleVersion = 'AUTO'` and `gameVersion = -1`: header parse,
`check64BitClient` (`wz-tool.js`), then the encryption-variant ×
candidate-version loop built on `tryParseDirectory` and
`findFirstImage`.  Reads are positioned over the whole buffer; `none`
models both a returned `null` and a thrown `RangeError`, which the
loop's `try`/`catch` treats alike as "this candidate failed".  The
variants are tried in the source's order GMS, EMS, BMS; their
keystreams enter as function parameters (the AES expansion itself is
the C9 machinery), with the BMS stream all zero — per `wz-crypto.js`
a zero IV yields the all-zero keystream, and the BMS IV is all zeros
(modelled from the spec: `wz-constants.js` is not among the provided
sources). -/

/-- `readByte` at an absolute position. -/
def rByte (buf : List Nat) (pos : Nat) : Option (Nat × Nat) :=
  match buf[pos]? with
  | some b => some (b % 256, pos + 1)
  | none => none

/-- `readSByte` at an absolute position. -/
def rSByte (buf : List Nat) (pos : Nat) : Option (Int × Nat) :=
  match buf[pos]? with
  | some b => some (toInt8 b, pos + 1)
  | none => none

/-- `readUInt16` (little-endian) at an absolute position. -/
def rUInt16 (buf : List Nat) (pos : Nat) : Option (Nat × Nat) :=
  match buf[pos]?, buf[pos + 1]? with
  | some b0, some b1 => some (b0 % 256 + 256 * (b1 % 256), pos + 2)
  | _, _ => none

/-- Reinterpret a uint16 as a signed int16 (`getInt16`). -/
def toInt16 (w : Nat) : Int :=
  let r := w % 65536
  if r < 32768 then (r : Int) else (r : Int) - 65536

/-- `readInt16` at an absolute position. -/
def rInt16 (buf : List Nat) (pos : Nat) : Option (Int × Nat) :=
  match rUInt16 buf pos with
  | some (w, p) => some (toInt16 w, p)
  | none => none

/-- `readUInt32` (little-endian) at an absolute position. -/
def rUInt32 (buf : List Nat) (pos : Nat) : Option (Nat × Nat) :=
  match buf[pos]?, buf[pos + 1]?, buf[pos + 2]?, buf[pos + 3]? with
  | some b0, some b1, some b2, some b3 =>
      some (b0 % 256 + 256 * (b1 % 256) + 65536 * (b2 % 256) + 16777216 * (b3 % 256),
        pos + 4)
  | _, _, _, _ => none

/-- `readInt32` at an absolute position. -/
def rInt32 (buf : List Nat) (pos : Nat) : Option (Int × Nat) :=
  match rUInt32 buf pos with
  | some (w, p) => some (toInt32 w, p)
  | none => none

/-- `readUInt64` (two little-endian uint32 halves). -/
def rUInt64 (buf : List Nat) (pos : Nat) : Option (Nat × Nat) :=
  match rUInt32 buf pos with
  | none => none
  | some (lo, p) =>
      match rUInt32 buf p with
      | none => none
      | some (hi, p') => some (hi * 4294967296 + lo, p')

/-- `readCompressedInt` at an absolute position. -/
def rCompressedInt (buf : List Nat) (pos : Nat) : Option (Int × Nat) :=
  match rSByte buf pos with
  | none => none
  | some (sb, p) => if sb = -128 then rInt32 buf p else some (sb, p)

/-- `readWzString` at an absolute position: the list reader applied to
the remaining bytes, the new position counting the bytes consumed. -/
def rWzString (key : Nat → Nat) (buf : List Nat) (pos : Nat) :
    Option (List Nat × Nat) :=
  match readWzString key (buf.drop pos) with
  | some (s, rest) => some (s, buf.length - rest.length)
  | none => none

/-- `readWzOffset` at an absolute position (top-level reader,
`startOffset = 0`): the C3 word decode applied at the word's own
position. -/
def rWzOffset (hash fStart : Nat) (buf : List Nat) (pos : Nat) :
    Option (Nat × Nat) :=
  match rUInt32 buf pos with
  | some (w, p) => some (readWzOffsetVal pos fStart hash w, p)
  | none => none

/-- One parsed trial-directory entry (`{ type, fname, fsize, offset }`;
the checksum is read but not kept, exactly as in the source). -/
structure DirEntry where
  ty : Nat
  fname : List Nat
  fsize : Int
  offset : Nat
deriving DecidableEq

/-- How many of the name's code units are printable ASCII
(`0x20 <= ch && ch <= 0x7E`). -/
def countPrintable (s : List Nat) : Nat :=
  (s.filter (fun c => decide (32 ≤ c) && decide (c ≤ 126))).length

/-- The trial walk's name validation: an empty name is skipped, a
non-empty one needs at least half its characters printable
(`valid < fname.length * 0.5` rejects). -/
def nameValid (s : List Nat) : Bool :=
  s.isEmpty || decide (s.length ≤ 2 * countPrintable s)

/-- The tail every entry type shares once its name is known: `fsize`,
`checksum` (discarded), encrypted offset, then the name validation. -/
def readEntryTail (hash fStart : Nat) (buf : List Nat) (ty : Nat)
    (fname : List Nat) (pos : Nat) : Option (DirEntry × Nat) :=
  match rCompressedInt buf pos with
  | none => none
  | some (fsize, p1) =>
      match rCompressedInt buf p1 with
      | none => none
      | some (_, p2) =>
          match rWzOffset hash fStart buf p2 with
          | none => none
          | some (off, p3) =>
              if nameValid fname then some (⟨ty, fname, fsize, off⟩, p3) else none

/-- The entry loop of `tryParseDirectory`: type dispatch 1/2/3/4, the
type-2 case resolving its name at `fStart + stringOffset` and
returning to the remembered position, unknown types failing the whole
walk. -/
def tryParseEntries (key : Nat → Nat) (hash fStart : Nat) (buf : List Nat) :
    Nat → Nat → Option (List DirEntry)
  | 0, _ => some []
  | i + 1, pos =>
      match rByte buf pos with
      | none => none
      | some (ty, p1) =>
          if ty = 1 then
            match rInt32 buf p1 with
            | none => none
            | some (_, p2) =>
                match rInt16 buf p2 with
                | none => none
                | some (_, p3) =>
                    match rWzOffset hash fStart buf p3 with
                    | none => none
                    | some (_, p4) => tryParseEntries key hash fStart buf i p4
          else if ty = 2 then
            match rInt32 buf p1 with
            | none => none
            | some (soff, p2) =>
                if ((fStart : Int) + soff) < 0 then none
                else
                  match rByte buf ((fStart : Int) + soff).toNat with
                  | none => none
                  | some (_, q1) =>
                      match rWzString key buf q1 with
                      | none => none
                      | some (fname, _) =>
                          match readEntryTail hash fStart buf ty fname p2 with
                          | none => none
                          | some (e, p') =>
                              match tryParseEntries key hash fStart buf i p' with
                              | none => none
                              | some es => some (e :: es)
          else if ty = 3 ∨ ty = 4 then
            match rWzString key buf p1 with
            | none => none
            | some (fname, p2) =>
                match readEntryTail hash fStart buf ty fname p2 with
                | none => none
                | some (e, p') =>
                    match tryParseEntries key hash fStart buf i p' with
                    | none => none
                    | some es => some (e :: es)
          else none

/-- `tryParseDirectory(reader, fStart)`: available-bytes check, entry
count (rejecting counts outside `0..100000`), the entry loop, and the
final `entries.length > 0` test. -/
def tryParseDirectory (key : Nat → Nat) (hash fStart : Nat) (buf : List Nat)
    (pos : Nat) : Option (List DirEntry) :=
  if buf.length ≤ pos then none
  else
    match rCompressedInt buf pos with
    | none => none
    | some (cnt, p1) =>
        if cnt < 0 ∨ 100000 < cnt then none
        else
          match tryParseEntries key hash fStart buf cnt.toNat p1 with
          | none => none
          | some entries => if entries.isEmpty then none else some entries

/-- Does the name end in ".img" (code units 46, 105, 109, 103)? -/
def endsWithImg (s : List Nat) : Bool := List.isSuffixOf [46, 105, 109, 103] s

/-- `findFirstImage(entries)`: the first entry of type 4, or with a
non-empty name ending in ".img". -/
def findFirstImage : List DirEntry → Option DirEntry
  | [] => none
  | e :: rest =>
      if e.ty == 4 || (!e.fname.isEmpty && endsWithImg e.fname) then some e
      else findFirstImage rest

/-- One variant's candidate loop: skip versions whose hash the header
rejects; otherwise trial-parse the directory at `dirPos` and accept the
version if the walk parses and the first image's decoded offset lands
on an `0x73` or `0x1B` byte (or no image entry exists at all). -/
def tryCandidates (key : Nat → Nat) (buf : List Nat)
    (wzVersionHeader fStart dirPos : Nat) : List Nat → Option Nat
  | [] => none
  | v :: rest =>
      if checkAndGetVersionHash wzVersionHeader v = 0 then
        tryCandidates key buf wzVersionHeader fStart dirPos rest
      else
        match tryParseDirectory key (checkAndGetVersionHash wzVersionHeader v)
            fStart buf dirPos with
        | none => tryCandidates key buf wzVersionHeader fStart dirPos rest
        | some entries =>
            match findFirstImage entries with
            | none => some v
            | some img =>
                match buf[img.offset]? with
                | some b =>
                    if b = 0x73 ∨ b = 0x1B then some v
                    else tryCandidates key buf wzVersionHeader fStart dirPos rest
                | none => tryCandidates key buf wzVersionHeader fStart dirPos rest

/-- The outer variant loop (`for encType of ['GMS','EMS','BMS']`): the
first variant whose candidate loop accepts wins; exhaustion is the
"Could not detect" failure. -/
def detectLoop (buf : List Nat) (wzVersionHeader fStart dirPos : Nat)
    (cands : List Nat) : List (Nat → Nat) → Option Nat
  | [] => none
  | key :: ks =>
      match tryCandidates key buf wzVersionHeader fStart dirPos cands with
      | some v => some v
      | none => detectLoop buf wzVersionHeader fStart dirPos cands ks

/-- `check64BitClient(reader, header)` from `wz-tool.js`. -/
def check64BitClient (buf : List Nat) (fSize fStart : Nat) : Option Bool :=
  if 2 ≤ fSize then
    match rUInt16 buf fStart with
    | none => none
    | some (encver, _) =>
        if 255 < encver then some true
        else if encver = 128 then
          if 5 ≤ fSize then
            match rInt32 buf fStart with
            | none => none
            | some (propCount, _) =>
                if 0 < propCount ∧ propCount % 256 = 0 ∧ propCount ≤ 65535 then
                  some true
                else some false
          else some false
        else some false
  else some true

/-- The full candidate list: ten synthetic 64-bit versions first when
the client is 64-bit, then the classic list headed by 83. -/
def fullCandidates (is64 : Bool) : List Nat :=
  (if is64 then (List.range 10).map (fun i => 770 + i) else []) ++ classicCandidates

/-- The hint-free invocation of `parseWzFile` up to its detected
version: PKG1 magic, `fSize`/`fStart`, the 64-bit check, the version
header, then the variant × candidate detection loop with the GMS, EMS
and BMS keystreams in the source's order.  (The null-terminated
copyright string only advances the temporary reader's cursor; every
later read seeks absolutely, so it plays no part in detection.) -/
def parseWzVersionNoHint (buf : List Nat) (kGMS kEMS kBMS : Nat → Nat) :
    Option Nat :=
  if buf.take 4 ≠ [0x50, 0x4B, 0x47, 0x31] then none
  else
    match rUInt64 buf 4 with
    | none => none
    | some (fSize, p1) =>
        match rUInt32 buf p1 with
        | none => none
        | some (fStart, _) =>
            match check64BitClient buf fSize fStart with
            | none => none
            | some is64 =>
                match (if is64 then some ((770 : Nat), fStart) else rUInt16 buf fStart) with
                | none => none
                | some (wzVersionHeader, _) =>
                    detectLoop buf wzVersionHeader fStart
                      (fStart + (if is64 then 0 else 2)) (fullCandidates is64)
                      [kGMS, kEMS, kBMS]

/-- The freshly emitted archive of the C5 scenario: the one-image
example tree repacked at patch 83, classic form, all-zero (BMS)
keystream, no original buffer (so the image is serialized from the
tree). -/
def freshArchive : List Nat := repackWzFile exampleRoot 83 (fun _ => 0) false none

/-- The 95 bytes `repackWzFile` emits for that tree (checked below):
header with fStart 60, version header `AC 00` at 60, the directory
walk at 62 (count 1, type 4, name "a.img" encrypted under the zero
keystream, fsize 15, checksum 2066, offset word at 76), and the
15-byte serialized image at 80 beginning with `0x73`. -/
def archLit : List Nat :=
  [80, 75, 71, 49, 35, 0, 0, 0, 0, 0, 0, 0, 60, 0, 0, 0,
   80, 97, 99, 107, 97, 103, 101, 32, 102, 105, 108, 101, 32, 118, 49, 46,
   48, 32, 67, 111, 112, 121, 114, 105, 103, 104, 116, 32, 50, 48, 48, 50,
   32, 87, 105, 122, 101, 116, 44, 32, 90, 77, 83, 0, 172, 0, 1, 4,
   251, 203, 133, 197, 192, 201, 15, 128, 18, 8, 0, 0, 39, 94, 14, 44,
   115, 248, 250, 217, 195, 221, 203, 221, 196, 200, 0, 0, 0, 0, 0]

/-- The name the trial walk decodes from the archive's stored
"a.img" bytes under an arbitrary keystream `k` (the stored bytes and
the walking mask are fixed; only the keystream varies). -/
def decName (k : Nat → Nat) : List Nat :=
  [(97 ^^^ k 0) &&& 255, (46 ^^^ k 1) &&& 255, (105 ^^^ k 2) &&& 255,
   (109 ^^^ k 3) &&& 255, (103 ^^^ k 4) &&& 255]

/-- The image offset the trial walk decodes from the word at
position 76 under version hash `h`. -/
def archOffsetField (h : Nat) : Nat := readWzOffsetVal 76 60 h 739139111

set_option maxRecDepth 8000 in
/-- The repack of the example tree at patch 83 evaluates to exactly the
literal above. -/
theorem freshArchive_eq_archLit : freshArchive = archLit := by decide

/-- Reading the entry name at position 64 consumes the length byte and
five encrypted characters (their count is stored in the clear, so the
consumption is keystream-independent) and decodes `decName k`. -/
theorem rWzString_archLit (k : Nat → Nat) :
    rWzString k archLit 64 = some (decName k, 70) := rfl

/-- The single entry of the emitted directory, as the trial walk sees
it under an arbitrary keystream `k` and an arbitrary version hash `h`:
the walk fails exactly when the decoded name flunks the printable-name
validation, and only the 4-byte offset field's decoded value depends
on `h`. -/
theorem tryParseDirectory_archLit (k : Nat → Nat) (h : Nat) :
    tryParseDirectory k h 60 archLit 62 =
      if nameValid (decName k) then
        some [⟨4, decName k, 15, archOffsetField h⟩]
      else none := by
  have htail : readEntryTail h 60 archLit 4 (decName k) 70 =
      if nameValid (decName k) then
        some (⟨4, decName k, 15, archOffsetField h⟩, 80)
      else none := rfl
  have h1 : tryParseDirectory k h 60 archLit 62 =
      match tryParseEntries k h 60 archLit 1 63 with
      | none => none
      | some entries => if entries.isEmpty then none else some entries := rfl
  have h2 : tryParseEntries k h 60 archLit 1 63 =
      match readEntryTail h 60 archLit 4 (decName k) 70 with
      | none => none
      | some (e, p') =>
          match tryParseEntries k h 60 archLit 0 p' with
          | none => none
          | some es => some (e :: es) := rfl
  rw [h1, h2, htail]
  by_cases hval : nameValid (decName k)
  · simp only [if_pos hval]
    rfl
  · simp only [if_neg hval]

/-- When the decoded name passes validation, the candidate loop accepts
its very first candidate, 83: header 0xAC yields the non-zero hash
1876, the walk parses, the first entry is the type-4 image, and its
offset decodes under hash 1876 to position 80, where the serialized
image's `0x73` header byte sits. -/
theorem tryCandidates_archLit_valid (k : Nat → Nat)
    (hval : nameValid (decName k) = true) :
    tryCandidates k archLit 172 60 62 classicCandidates = some 83 := by
  have h0 : tryCandidates k archLit 172 60 62 classicCandidates =
      match tryParseDirectory k 1876 60 archLit 62 with
      | none => tryCandidates k archLit 172 60 62
          (((List.range 500).map (· + 1)).filter (fun v => v ≠ 83))
      | some entries =>
          match findFirstImage entries with
          | none => some 83
          | some img =>
              match archLit[img.offset]? with
              | some b =>
                  if b = 0x73 ∨ b = 0x1B then some 83
                  else tryCandidates k archLit 172 60 62
                      (((List.range 500).map (· + 1)).filter (fun v => v ≠ 83))
              | none => tryCandidates k archLit 172 60 62
                  (((List.range 500).map (· + 1)).filter (fun v => v ≠ 83)) := rfl
  rw [h0, tryParseDirectory_archLit k 1876, if_pos hval]
  rfl

/-- When the decoded name fails validation, every candidate of the
variant fails: the walk's only keystream-sensitive step is the name
validation, which does not depend on the candidate's hash, so the
whole candidate list is exhausted. -/
theorem tryCandidates_archLit_invalid (k : Nat → Nat)
    (hval : nameValid (decName k) = false) (cands : List Nat) :
    tryCandidates k archLit 172 60 62 cands = none := by
  have hnv : ¬ (nameValid (decName k) = true) := by simp [hval]
  induction cands with
  | nil => rfl
  | cons v rest ih =>
      simp only [tryCandidates]
      by_cases hz : checkAndGetVersionHash 172 v = 0
      · rw [if_pos hz]; exact ih
      · rw [if_neg hz, tryParseDirectory_archLit k (checkAndGetVersionHash 172 v),
          if_neg hnv]
        exact ih

/-- The variant loop detects version 83 for every GMS and EMS
keystream: each of the two either accepts candidate 83 outright or
rejects all candidates, and the all-zero BMS keystream — under which
the name decodes back to the printable "a.img" — then accepts 83. -/
theorem detectLoop_archLit (kG kE : Nat → Nat) :
    detectLoop archLit 172 60 62 classicCandidates [kG, kE, fun _ => 0] = some 83 := by
  have hbms : tryCandidates (fun _ => 0) archLit 172 60 62 classicCandidates = some 83 :=
    tryCandidates_archLit_valid (fun _ => 0) (by decide)
  by_cases hG : nameValid (decName kG) = true
  · simp only [detectLoop, tryCandidates_archLit_valid kG hG]
  · have hG' : nameValid (decName kG) = false := by
      revert hG; cases nameValid (decName kG) <;> simp
    simp only [detectLoop, tryCandidates_archLit_invalid kG hG']
    by_cases hE : nameValid (decName kE) = true
    · simp only [tryCandidates_archLit_valid kE hE]
    · have hE' : nameValid (decName kE) = false := by
        revert hE; cases nameValid (decName kE) <;> simp
      simp only [tryCandidates_archLit_invalid kE hE', hbms]

/-- **C5 (amended).** Repacking an archive at patch version 83 in the
classic form produces the uint16 version header `0xAC` — the complement
of the XOR of the four bytes of hash("83") = 1876 = 0x754 — not `0xCD`;
and parsing the freshly emitted archive with no variant or version hint
recovers patch version 83.  The recovery holds for every possible GMS
and EMS keystream (the BMS keystream is all zero, as its all-zero IV
dictates): the header parses as classic with version header 0xAC, and
each variant tried either accepts the head candidate 83 — whose hash
1876 decodes the first image's offset onto its 0x73 header byte — or
fails the keystream-sensitive but version-independent printable-name
validation for every candidate, after which the BMS pass accepts 83. -/
theorem repack_patch83_hintfree_detection (kGMS kEMS : Nat → Nat) :
    wzVersionHeaderFor 83 = 0xAC ∧
    parseWzVersionNoHint freshArchive kGMS kEMS (fun _ => 0) = some 83 := by
  refine ⟨by decide, ?_⟩
  rw [freshArchive_eq_archLit]
  have h0 : parseWzVersionNoHint archLit kGMS kEMS (fun _ => 0) =
      detectLoop archLit 172 60 62 classicCandidates [kGMS, kEMS, fun _ => 0] := rfl
  rw [h0]
  exact detectLoop_archLit kGMS kEMS

/-- Witness for C6: inline string "A" under the all-zero keystream,
with discriminators 0x00 (inline) and 0x73 (empty). -/
theorem parseUOLValue_dispatch_witness :
    (∀ c ∈ [65], c < 65536) ∧ (0x73 : Nat) ≠ 0 ∧ (0x73 : Nat) ≠ 1 ∧
    (parseUOLValue (fun _ => 0) (0 :: 0 :: (writeWzString (fun _ => 0) [65] ++ [])) 0 0 0 =
        some [65] ∧
      parseUOLValue (fun _ => 0) (0 :: 0x73 :: (writeWzString (fun _ => 0) [65] ++ [])) 0 0 0 =
        some []) :=
  ⟨by decide, by decide, by decide,
    parseUOLValue_dispatch (fun _ => 0) [65] [] 0 0x73
      (fun _ => (by decide : (0 : Nat) < 256)) (by decide) (by decide) (by decide) (by decide)⟩

end Wz
